import Mathlib

/-!
# apache2metric: downsampling of an Apache access log into request counts

Shallow embedding of `cmd/apache2metric/main.go`.

* A Go `string` is a sequence of bytes (`GoString`).
* `time.Duration` is a signed count of nanoseconds (an `int64`), modelled as an `Int`
  together with the range predicate `isInt64` where the range matters.
* A `time.Time` is observed by the loop of `main` only through `Unix()`, and the sample
  time is built by `time.Unix(sec, 0)`, so instants are Unix seconds (`Int`).  Timestamps
  produced by `time.Parse` have a four digit year, so their Unix seconds have absolute
  value below `2^38`; the last sample time stays between the timestamps seen when the
  interval is not negative (`runTrace_within_range`), and moves by less than `2^34`
  seconds per line otherwise, so the `int64` subtraction and addition of the loop do not
  wrap and are modelled by `Int` subtraction and addition.
* `samplingInterval.Seconds()` is a `float64`.  The standard library computes it as
  `float64(d / Second) + float64(d % Second) / 1e9`; the two roundings (of the quotient
  and of the sum) are modelled exactly by `f64Round`, round to nearest, ties to even,
  on rational numbers.
* The functions of the standard library that `main` and `extractRequestTime` call are
  modelled after the standard library: `strings.Index`, `strings.TrimSpace`,
  `time.Parse` for the one layout of the program, `Time.Format(time.RFC3339)`,
  `bufio.Writer.WriteString` and `Flush`.  `time.Unix` places the sample time in the
  local time zone of the process; its offset is a parameter of the output functions.
* The input of a run is given by its lines.  `bufio.Scanner` yields them one by one and
  stops, as at the end of the input, at the first line of `bufio.MaxScanTokenSize` bytes
  or more (`scannerLines`).
* On a line without a timestamp `fmt.Printf` writes the message to standard output and
  `os.Exit(1)` ends the run without running the deferred `writer.Flush()`; `runLoop`
  keeps apart the bytes that reached standard output and the bytes still buffered.  The
  text of an error of `time.Parse` is a parameter of the run.
-/

namespace Apache2Metric

/-! ## Strings -/

/-- One byte of a Go string. -/
abbrev Byte := Fin 256

/-- Go string: a sequence of bytes. -/
abbrev GoString := List Byte

/-- UTF-8 bytes of a string literal. -/
def goString (s : String) : GoString :=
  s.toUTF8.data.toList.map (fun b => b.val)

/-- The byte `[`. -/
def openBracket : Byte := 91

/-- The byte `]`. -/
def closeBracket : Byte := 93

/-- Position of the first occurrence of byte `c` at or after offset `i`, or `-1`. -/
def indexFrom (c : Byte) : GoString → Int → Int
  | [], _ => -1
  | b :: rest, i => if b = c then i else indexFrom c rest (i + 1)

/-- Model of `strings.Index(s, sep)` for a one byte separator: the index of the first
occurrence of `c` in `s`, or `-1` when `c` does not occur. -/
def stringsIndex (s : GoString) (c : Byte) : Int :=
  indexFrom c s 0

/-- Model of the Go slice expression `s[lo:hi]` for `0 ≤ lo ≤ hi ≤ len(s)`. -/
def goSlice (s : GoString) (lo hi : Int) : GoString :=
  (s.take hi.toNat).drop lo.toNat

/-! ## Timestamp extraction -/

deriving instance DecidableEq for Except

/-- Errors of `extractRequestTime`: the two `fmt.Errorf` returns carry the line; the
error of `time.Parse` is returned unchanged. -/
inductive ExtractError (ε : Type) where
  | malformedLine (line : GoString) : ExtractError ε
  | parseError (err : ε) : ExtractError ε
  deriving DecidableEq, Repr

/-- Embedding of `extractRequestTime`.  The parameter `timeParse` stands for
`time.Parse("02/Jan/2006:15:04:05 -0700", ·)` of the standard library. -/
def extractRequestTime {ε τ : Type} (timeParse : GoString → Except ε τ)
    (line : GoString) : Except (ExtractError ε) τ :=
  let timeStart := stringsIndex line openBracket
  let timeEnd := stringsIndex line closeBracket
  if timeStart < 0 ∨ timeEnd < 0 then
    .error (.malformedLine line)
  else if timeStart > timeEnd then
    .error (.malformedLine line)
  else
    (timeParse (goSlice line (timeStart + 1) timeEnd)).mapError .parseError

/-- Specification side: the text strictly between the first `[` of a line and the first
`]` after it. -/
def textBetween (line : GoString) : GoString :=
  ((line.dropWhile (fun b => b ≠ openBracket)).drop 1).takeWhile (fun b => b ≠ closeBracket)

/-- Specification side: number of bytes before the first occurrence of `c` (the length of
the line when `c` does not occur). -/
def firstPos (line : GoString) (c : Byte) : Nat :=
  (line.takeWhile (fun b => b ≠ c)).length

/-- Specification side: the line has a `[` and a `]`, and its first `[` is strictly before
its first `]`. -/
def firstOpenBeforeClose (line : GoString) : Prop :=
  openBracket ∈ line ∧ closeBracket ∈ line ∧
    firstPos line openBracket < firstPos line closeBracket

instance (line : GoString) : Decidable (firstOpenBeforeClose line) := by
  unfold firstOpenBeforeClose
  exact inferInstance

/-! ## Durations and `float64` rounding -/

/-- Model of `time.Duration`: nanoseconds. -/
abbrev Duration := Int

/-- The constant `time.Second`. -/
def Second : Duration := 1000000000

/-- Range of an `int64`, the representation of a `time.Duration`. -/
def isInt64 (d : Int) : Prop := -9223372036854775808 ≤ d ∧ d ≤ 9223372036854775807

instance (d : Int) : Decidable (isInt64 d) := by
  unfold isInt64
  exact inferInstance

/-- Floor of the binary logarithm, by halving; the first argument bounds the number of
halvings. -/
def log2Fuel : Nat → Nat → Nat
  | 0, _ => 0
  | fuel + 1, n => if n < 2 then 0 else log2Fuel fuel (n / 2) + 1

/-- Floor of the binary logarithm of a natural number (zero for zero). -/
def log2Nat (n : Nat) : Nat := log2Fuel n n

/-- Floor of the binary logarithm of the positive rational `p / q`: the difference `k` of
the logarithms of `p` and `q` when `2^k ≤ p / q`, and `k - 1` otherwise. -/
def floorLog2 (p q : Nat) : Int :=
  let k : Int := (log2Nat p : Int) - (log2Nat q : Int)
  if q * 2 ^ k.toNat ≤ p * 2 ^ (-k).toNat then k else k - 1

/-- Nearest integer to `p / q`, ties to the even neighbour. -/
def roundHalfEven (p q : Nat) : Nat :=
  let f := p / q
  let r := p % q
  if 2 * r < q then f else if q < 2 * r then f + 1 else if f % 2 = 0 then f else f + 1

/-- Significand `m` and exponent `e` of the `float64` nearest to the positive rational
`p / q`: the exponent is chosen so that `p / q / 2^e` lies in `[2^52, 2^53)`, and the
significand is that quotient rounded to the nearest integer, ties to even.  The exponent
range of `float64` is not modelled: the numbers rounded here have magnitude between
`1e-9` and `1e10`. -/
def f64RoundPos (p q : Nat) : Nat × Int :=
  let e := floorLog2 p q - 52
  (roundHalfEven (p * 2 ^ (-e).toNat) (q * 2 ^ e.toNat), e)

/-- The `float64` nearest to the rational `x` (round to nearest, ties to even), as a
rational number. -/
def f64Round (x : ℚ) : ℚ :=
  if x.num = 0 then 0 else
    ((x.num.sign * ((f64RoundPos x.num.natAbs x.den).1 : Int) : Int) : ℚ)
      * (2 : ℚ) ^ (f64RoundPos x.num.natAbs x.den).2

/-- Value of a finite `float64`, exponent range aside: an integer significand of magnitude
at most `2^53` times a power of two. -/
def isF64 (z : ℚ) : Prop := ∃ k j : Int, |k| ≤ 2 ^ 53 ∧ z = (k : ℚ) * (2 : ℚ) ^ j

/-- Model of `Duration.Seconds`:
`sec := d / Second; nsec := d % Second; return float64(sec) + float64(nsec)/1e9`,
with Go's truncated integer division and remainder. -/
def Duration.Seconds (d : Duration) : ℚ :=
  let sec := d.tdiv Second
  let nsec := d.tmod Second
  f64Round (f64Round (sec : ℚ) + f64Round (f64Round (nsec : ℚ) / f64Round 1000000000))

/-- Model of the conversion `int64(f)` of a `float64` within the `int64` range:
truncation toward zero. -/
def truncToInt64 (x : ℚ) : Int := x.num.tdiv x.den

/-- The expression `int64(samplingInterval.Seconds())` of `main`. -/
def intervalSeconds (samplingInterval : Duration) : Int :=
  truncToInt64 (Duration.Seconds samplingInterval)

/-! ## The accumulator loop of `main` -/

/-- The two command line options. -/
structure Config where
  metricName : String
  samplingInterval : Duration
  deriving DecidableEq, Repr

/-- One output record: the arguments of the `fmt.Sprintf` call, with the sample time as
Unix seconds. -/
structure SampleRecord where
  sampleTime : Int
  metricName : String
  value : Nat
  deriving DecidableEq, Repr

/-- The variables of `main` that live across loop iterations.  The field
`lastSampleTime` is `none` for the nil pointer. -/
structure LoopState where
  reqCount : Nat
  lineno : Nat
  lastSampleTime : Option Int
  deriving DecidableEq, Repr

/-- State before the first iteration: `reqCount := 0`, `lineno := 1`, nil pointer. -/
def initState : LoopState := ⟨0, 1, none⟩

/-- Body of the loop of `main` after a successful `extractRequestTime`, for an event
with Unix time `t`: returns the next state and the record written, if any. -/
def processEvent (cfg : Config) (s : LoopState) (t : Int) :
    LoopState × Option SampleRecord :=
  let last : Int := match s.lastSampleTime with
    | none => t
    | some l => l
  let timeSinceSample := t - last
  if timeSinceSample > intervalSeconds cfg.samplingInterval then
    let sampleTime := last + intervalSeconds cfg.samplingInterval
    (⟨s.reqCount + 1, s.lineno + 1, some sampleTime⟩,
      some ⟨sampleTime, cfg.metricName, s.reqCount⟩)
  else
    (⟨s.reqCount + 1, s.lineno + 1, some last⟩, none)

/-- The loop over a sequence of events: final state and, for each event in order, the
record it triggered, if any. -/
def runTrace (cfg : Config) : LoopState → List Int → LoopState × List (Option SampleRecord)
  | s, [] => (s, [])
  | s, t :: ts =>
    let r := processEvent cfg s t
    let rest := runTrace cfg r.1 ts
    (rest.1, r.2 :: rest.2)

/-- State after a run from the initial state. -/
def finalState (cfg : Config) (ts : List Int) : LoopState :=
  (runTrace cfg initState ts).1

/-- Per event outcomes of a run from the initial state. -/
def trace (cfg : Config) (ts : List Int) : List (Option SampleRecord) :=
  (runTrace cfg initState ts).2

/-- The records written by a run, in output order. -/
def output (cfg : Config) (ts : List Int) : List SampleRecord :=
  (trace cfg ts).reduceOption

/-- The loop of `main` over lines: each line is trimmed by `trimSpace`, its time is
extracted, and a failure stops the run with the current `lineno` (`os.Exit(1)`); `unixOf`
is `Time.Unix`.  The list holds the records handed to `writer.WriteString` up to the end
of the input or the stop. -/
def mainLoop {ε τ : Type} (trimSpace : GoString → GoString)
    (timeParse : GoString → Except ε τ) (unixOf : τ → Int) (cfg : Config) :
    LoopState → List GoString → Except (Nat × ExtractError ε) LoopState × List SampleRecord
  | s, [] => (.ok s, [])
  | s, line :: rest =>
    match extractRequestTime timeParse (trimSpace line) with
    | .error err => (.error (s.lineno, err), [])
    | .ok t =>
      let r := processEvent cfg s (unixOf t)
      let tl := mainLoop trimSpace timeParse unixOf cfg r.1 rest
      (tl.1, r.2.toList ++ tl.2)

/-! ## `strings.TrimSpace` -/

/-- UTF-8 encodings of the runes for which `unicode.IsSpace` holds: tab, line feed,
vertical tab, form feed, carriage return, space, U+0085, U+00A0, U+1680, U+2000 to
U+200A, U+2028, U+2029, U+202F, U+205F and U+3000. -/
def spaceEncodings : List GoString :=
  [[9], [10], [11], [12], [13], [32], [194, 133], [194, 160], [225, 154, 128],
   [226, 128, 128], [226, 128, 129], [226, 128, 130], [226, 128, 131], [226, 128, 132],
   [226, 128, 133], [226, 128, 134], [226, 128, 135], [226, 128, 136], [226, 128, 137],
   [226, 128, 138], [226, 128, 168], [226, 128, 169], [226, 128, 175], [226, 129, 159],
   [227, 128, 128]]

/-- Whether `s` begins with the bytes `e`. -/
def startsWith (s : GoString) : GoString → Bool
  | [] => true
  | b :: e => match s with
    | [] => false
    | c :: s' => c = b && startsWith s' e

/-- Removes from the front of `s`, repeatedly, any of the byte sequences `encs`; the first
argument bounds the number of removals. -/
def stripFront (encs : List GoString) : Nat → GoString → GoString
  | 0, s => s
  | fuel + 1, s =>
    match encs.find? (startsWith s) with
    | some e => if e.length = 0 then s else stripFront encs fuel (s.drop e.length)
    | none => s

/-- Model of `strings.TrimLeftFunc(s, unicode.IsSpace)`: the leading rune is decoded and
removed while it is a space; a decoded rune is a space exactly when the string begins with
the UTF-8 encoding of a space rune. -/
def trimLeftSpace (s : GoString) : GoString :=
  stripFront spaceEncodings s.length s

/-- Model of `strings.TrimRightFunc(s, unicode.IsSpace)`: the last rune is decoded and
removed while it is a space; `utf8.DecodeLastRuneInString` yields a space rune exactly when
the string ends with the UTF-8 encoding of a space rune. -/
def trimRightSpace (s : GoString) : GoString :=
  (stripFront (spaceEncodings.map List.reverse) s.length s.reverse).reverse

/-- Model of `strings.TrimSpace`, whose ASCII fast path agrees with
`TrimRightFunc(TrimLeftFunc(s, unicode.IsSpace), unicode.IsSpace)`. -/
def stringsTrimSpace (s : GoString) : GoString :=
  trimRightSpace (trimLeftSpace s)

/-! ## `time.Parse` with the layout `02/Jan/2006:15:04:05 -0700`

The layout splits into the chunks day `02`, `/`, month `Jan`, `/`, year `2006`, `:`, hour
`15`, `:`, minute `04`, `:`, second `05`, a space, zone `-0700`.  The definitions below
follow `parse` of the standard library (package `time`, file `format.go`) chunk by
chunk. -/

/-- Result of `time.Parse` as the rest of the program sees it: the Unix seconds and the
nanoseconds within the second. -/
structure GoTime where
  unix : Int
  nsec : Nat
  deriving DecidableEq, Repr

/-- Errors of `time.Parse`: a chunk that cannot be parsed, a field out of range, or text
left after the last chunk. -/
inductive ParseError where
  | cannotParse
  | outOfRange
  | extraText
  deriving DecidableEq, Repr

/-- Model of `isDigit` on one byte: `'0' ≤ c ≤ '9'`. -/
def isDigit (b : Byte) : Bool := 48 ≤ b.val && b.val ≤ 57

/-- Value of a digit byte. -/
def digitVal (b : Byte) : Nat := b.val - 48

/-- Model of `getnum(s, fixed)`: a number of one or two digits, of exactly two digits when
`fixed`; returns the number and the rest of the text. -/
def getnum (s : GoString) (fixed : Bool) : Option (Nat × GoString) :=
  match s with
  | [] => none
  | a :: rest =>
    if isDigit a then
      match rest with
      | [] => if fixed then none else some (digitVal a, rest)
      | b :: rest' =>
        if isDigit b then some (digitVal a * 10 + digitVal b, rest')
        else if fixed then none else some (digitVal a, rest)
    else none

/-- Model of `skip(value, prefix)` for a one byte prefix other than a space: the value
must begin with that byte. -/
def skipByte (c : Byte) (value : GoString) : Option GoString :=
  match value with
  | [] => none
  | b :: rest => if b = c then some rest else none

/-- Model of `skip(value, " ")`: a non-empty value must begin with a space, and the whole
run of leading spaces is removed. -/
def skipSpace (value : GoString) : Option GoString :=
  match value with
  | [] => some []
  | b :: rest => if b = 32 then some (rest.dropWhile (fun x => x = 32)) else none

/-- The table `shortMonthNames`. -/
def shortMonthNames : List GoString :=
  [[74, 97, 110], [70, 101, 98], [77, 97, 114], [65, 112, 114], [77, 97, 121],
   [74, 117, 110], [74, 117, 108], [65, 117, 103], [83, 101, 112], [79, 99, 116],
   [78, 111, 118], [68, 101, 99]]

/-- Model of `match(s1, s2)` on one byte: equal, or equal after setting the lower case
bit, the result being a lower case letter. -/
def matchByte (c1 c2 : Byte) : Bool :=
  c1 = c2 ||
    ((c1.val ||| 32) = (c2.val ||| 32) && 97 ≤ (c1.val ||| 32) && (c1.val ||| 32) ≤ 122)

/-- Model of `match(s1, s2)` for strings of three bytes. -/
def matchFold (a b c : Byte) : GoString → Bool
  | [x, y, z] => matchByte a x && matchByte b y && matchByte c z
  | _ => false

/-- Model of `lookup(shortMonthNames, value)`: the index of the first month name that the
first three bytes of the value match, and the rest of the value. -/
def lookupMonth (value : GoString) : Option (Nat × GoString) :=
  match value with
  | a :: b :: c :: rest =>
    match shortMonthNames.findIdx? (matchFold a b c) with
    | some i => some (i, rest)
    | none => none
  | _ => none

/-- Model of the chunk `2006`: four digits. -/
def longYear (value : GoString) : Option (Nat × GoString) :=
  match value with
  | a :: b :: c :: d :: rest =>
    if isDigit a && isDigit b && isDigit c && isDigit d then
      some (digitVal a * 1000 + digitVal b * 100 + digitVal c * 10 + digitVal d, rest)
    else none
  | _ => none

/-- Decimal value of a sequence of digit bytes. -/
def digitsVal (ds : GoString) : Nat :=
  ds.foldl (fun acc b => acc * 10 + digitVal b) 0

/-- Model of the special case after the seconds, a fractional second that the layout does
not have: a period or a comma followed by at least one digit; all the digits that follow
are consumed and the first nine give the nanoseconds (`parseNanoseconds`). -/
def fracSecond (value : GoString) : Nat × GoString :=
  match value with
  | sep :: d :: rest =>
    if (sep = 46 ∨ sep = 44) ∧ isDigit d = true then
      let digits := ((d :: rest).takeWhile isDigit).take 9
      (digitsVal digits * 10 ^ (9 - digits.length), (d :: rest).dropWhile isDigit)
    else (0, value)
  | _ => (0, value)

/-- Model of the chunk `-0700`: a sign and four digits; returns the offset in seconds east
of UTC.  Offsets with hours above 24 or minutes above 60 are out of range. -/
def numTZ (value : GoString) : Except ParseError (Int × GoString) :=
  match value with
  | sign :: h1 :: h2 :: m1 :: m2 :: rest =>
    match getnum [h1, h2] true with
    | none => .error .cannotParse
    | some (hr, _) =>
      match getnum [m1, m2] true with
      | none => .error .cannotParse
      | some (mm, _) =>
        if hr > 24 ∨ mm > 60 then .error .outOfRange
        else if sign = 43 then .ok ((((hr * 60 + mm) * 60 : Nat) : Int), rest)
        else if sign = 45 then .ok (-(((hr * 60 + mm) * 60 : Nat) : Int), rest)
        else .error .cannotParse
  | _ => .error .cannotParse

/-- Model of `isLeap`. -/
def isLeap (year : Nat) : Bool :=
  year % 4 = 0 && (year % 100 ≠ 0 || year % 400 = 0)

/-- Model of `daysIn(month, year)` for the month with index `month` (January is 0). -/
def daysIn (month year : Nat) : Nat :=
  if month = 1 then (if isLeap year then 29 else 28)
  else [31, 28, 31, 30, 31, 30, 31, 31, 30, 31, 30, 31].getD month 0

/-- The table `daysBefore`: days of a common year before the month with the given
index; the last entry is the length of the year. -/
def daysBefore (month : Nat) : Nat :=
  [0, 31, 59, 90, 120, 151, 181, 212, 243, 273, 304, 334, 365].getD month 0

/-- Days from 1970-01-01 to the first of January of `year` in the proleptic Gregorian
calendar. -/
def daysBeforeYear (year : Int) : Int :=
  365 * (year - 1970) + ((year - 1) / 4 - (year - 1) / 100 + (year - 1) / 400) - 477

/-- Model of `time.Date(year, month, day, hour, min, sec, 0, time.UTC).Unix()` for fields
within their ranges; `month` is the index of the month (January is 0). -/
def dateUnix (year month day hour min sec : Nat) : Int :=
  (daysBeforeYear year + daysBefore month
      + (if isLeap year ∧ 2 ≤ month then 1 else 0) + (day - 1 : Int)) * 86400
    + hour * 3600 + min * 60 + sec

/-- Lifts a missing result to the error "cannot parse". -/
def orBad {α : Type} : Option α → Except ParseError α
  | some a => .ok a
  | none => .error .cannotParse

/-- Model of `time.Parse("02/Jan/2006:15:04:05 -0700", value)`. -/
def timeParse (value : GoString) : Except ParseError GoTime := do
  let (day, v) ← orBad (getnum value true)
  let v ← orBad (skipByte 47 v)
  let (month, v) ← orBad (lookupMonth v)
  let v ← orBad (skipByte 47 v)
  let (year, v) ← orBad (longYear v)
  let v ← orBad (skipByte 58 v)
  let (hour, v) ← orBad (getnum v false)
  if 24 ≤ hour then .error .outOfRange else
  let v ← orBad (skipByte 58 v)
  let (min, v) ← orBad (getnum v true)
  if 60 ≤ min then .error .outOfRange else
  let v ← orBad (skipByte 58 v)
  let (sec, v) ← orBad (getnum v true)
  if 60 ≤ sec then .error .outOfRange else
  let (nsec, v) := fracSecond v
  let v ← orBad (skipSpace v)
  let (zoneOffset, v) ← numTZ v
  if v ≠ [] then .error .extraText else
  if day < 1 ∨ day > daysIn month year then .error .outOfRange else
  .ok ⟨dateUnix year month day hour min sec - zoneOffset, nsec⟩


/-! ## Rendering of decimal fields (specification side and `Time.Format`) -/

/-- The digit byte of the last decimal digit of `k`. -/
def digitByte (k : Nat) : Byte := ⟨48 + k % 10, by omega⟩

/-- Two decimal digits, zero padded. -/
def twoDigits (n : Nat) : GoString := [digitByte (n / 10), digitByte n]

/-- Four decimal digits, zero padded. -/
def fourDigits (n : Nat) : GoString :=
  [digitByte (n / 1000), digitByte (n / 100), digitByte (n / 10), digitByte n]

/-- Specification side: the text `dd/Mon/yyyy:HH:MM:SS ±hhmm` for the given fields;
`month` is the index of the month (January is 0) and `west` selects the sign `-`. -/
def wellFormedTimestamp (day month year hour min sec : Nat) (west : Bool)
    (zoneHour zoneMin : Nat) : GoString :=
  twoDigits day ++ (47 :: (shortMonthNames.getD month [] ++ (47 :: (fourDigits year ++
    (58 :: (twoDigits hour ++ (58 :: (twoDigits min ++ (58 :: (twoDigits sec ++
      (32 :: (if west then 45 else 43) :: (twoDigits zoneHour ++ twoDigits zoneMin))))))))))))

/-- Specification side: zone offset in seconds east of UTC. -/
def zoneSeconds (west : Bool) (zoneHour zoneMin : Nat) : Int :=
  if west then -((zoneHour * 3600 + zoneMin * 60 : Nat) : Int)
  else ((zoneHour * 3600 + zoneMin * 60 : Nat) : Int)

/-! ## Specification side: the texts accepted as a timestamp -/

/-- ASCII lower case of a byte. -/
def lowerAscii (b : Byte) : Byte :=
  if 65 ≤ b.val ∧ b.val ≤ 90 then b + 32 else b

/-- The bytes `a b c` spell the abbreviated name of the month with index `i`, in any
letter case. -/
def isMonthAbbrev (i : Nat) (a b c : Byte) : Prop :=
  ∃ name, shortMonthNames[i]? = some name ∧
    [a, b, c].map lowerAscii = name.map lowerAscii

/-- Number written by two digit bytes. -/
def num2 (a b : Byte) : Nat := digitVal a * 10 + digitVal b

/-- Number written by four digit bytes. -/
def num4 (a b c d : Byte) : Nat :=
  digitVal a * 1000 + digitVal b * 100 + digitVal c * 10 + digitVal d

/-- The text of an hour field: one digit, or two digits. -/
def isHourText (hh : GoString) (hour : Nat) : Prop :=
  (∃ a, hh = [a] ∧ isDigit a = true ∧ hour = digitVal a) ∨
  (∃ a b, hh = [a, b] ∧ isDigit a = true ∧ isDigit b = true ∧ hour = num2 a b)

/-- The text of an optional fractional second: nothing, or a period or a comma followed by
one or more digits. -/
def isFracText (frac : GoString) : Prop :=
  frac = [] ∨ ∃ sep ds, frac = sep :: ds ∧ (sep = 46 ∨ sep = 44) ∧ ds ≠ [] ∧
    ∀ b ∈ ds, isDigit b = true

/-- The lenient timestamp pattern: two digit day, `/`, month abbreviation in any letter
case, `/`, four digit year, `:`, hour of one or two digits, `:`, two digit minute, `:`, two
digit second, an optional fractional second, one or more spaces, a sign and a four digit
zone offset; the day exists in the month, the hour is below 24, minute and second are
below 60, the zone hours are at most 24 and the zone minutes at most 60. -/
def isLenientTimestamp (s : GoString) : Prop :=
  ∃ (d1 d2 m1 m2 m3 y1 y2 y3 y4 n1 n2 s1 s2 sign z1 z2 z3 z4 : Byte)
    (hh frac : GoString) (month hour spaces : Nat),
    s = d1 :: d2 :: 47 :: m1 :: m2 :: m3 :: 47 :: y1 :: y2 :: y3 :: y4 :: 58 ::
          (hh ++ 58 :: n1 :: n2 :: 58 :: s1 :: s2 ::
            (frac ++ (List.replicate (spaces + 1) 32 ++ [sign, z1, z2, z3, z4]))) ∧
    (∀ b ∈ [d1, d2, y1, y2, y3, y4, n1, n2, s1, s2, z1, z2, z3, z4], isDigit b = true) ∧
    isMonthAbbrev month m1 m2 m3 ∧ isHourText hh hour ∧ isFracText frac ∧
    (sign = 43 ∨ sign = 45) ∧
    1 ≤ num2 d1 d2 ∧ num2 d1 d2 ≤ daysIn month (num4 y1 y2 y3 y4) ∧
    hour < 24 ∧ num2 n1 n2 < 60 ∧ num2 s1 s2 < 60 ∧ num2 z1 z2 ≤ 24 ∧ num2 z3 z4 ≤ 60

/-! ## `Time.Format(time.RFC3339)`, `fmt.Sprintf` and the buffered writer -/

/-- Decimal digits of a natural number, most significant first; the first argument bounds
the number of digits. -/
def decimalFuel : Nat → Nat → GoString → GoString
  | 0, _, acc => acc
  | fuel + 1, n, acc =>
    if n < 10 then digitByte n :: acc else decimalFuel fuel (n / 10) (digitByte n :: acc)

/-- Decimal digits of a natural number (the verb `%d` on a non-negative `int`). -/
def decimal (n : Nat) : GoString := decimalFuel (n + 1) n []

/-- Model of `appendInt(b, x, width)`: a minus sign for a negative number, then the
decimal digits padded with zeros on the left to at least `width` digits. -/
def appendInt (x : Int) (width : Nat) : GoString :=
  (if x < 0 then [45] else []) ++
    (List.replicate (width - (decimal x.natAbs).length) 48 ++ decimal x.natAbs)

/-- Model of `isLeap` for a year that may be negative. -/
def isLeapInt (year : Int) : Bool :=
  year % 4 = 0 && (year % 100 ≠ 0 || year % 400 = 0)

/-- First half of the model of `absDate`: the year and the day of the year (from 0) of the
day that lies `days` days after 1970-01-01, by cutting off cycles of 400, 100, 4 and 1
years counted from the first of January of a year that is 1 modulo 400. -/
def yearAndDay (days : Int) : Int × Nat :=
  let d0 := days + 719162
  let n400 := d0 / 146097
  let d1 := (d0 % 146097).toNat
  let n100 := d1 / 36524 - (d1 / 36524) / 4
  let d2 := d1 - 36524 * n100
  let n4 := d2 / 1461
  let d3 := d2 - 1461 * n4
  let n1 := d3 / 365 - (d3 / 365) / 4
  (400 * n400 + (100 * n100 + 4 * n4 + n1 : Nat) + 1, d3 - 365 * n1)

/-- Second half of the model of `absDate`: index of the month (January is 0) and day of
the month from the day of the year; the month is estimated as if every month had 31 days
and corrected by the table `daysBefore`. -/
def monthAndDay (leap : Bool) (yday : Nat) : Nat × Nat :=
  if leap && yday = 59 then (1, 29)
  else
    let day := if leap && yday > 59 then yday - 1 else yday
    let month := day / 31
    if day ≥ daysBefore (month + 1) then (month + 1, day - daysBefore (month + 1) + 1)
    else (month, day - daysBefore month + 1)

/-- Model of `absDate`: year, index of the month (January is 0) and day of the month of
the day that lies `days` days after 1970-01-01. -/
def civilFromDays (days : Int) : Int × Nat × Nat :=
  let yd := yearAndDay days
  let md := monthAndDay (isLeapInt yd.1) yd.2
  (yd.1, md.1, md.2)

/-- Model of `t.Format(time.RFC3339)` for `t = time.Unix(unix, 0)` in a location whose
offset at that instant is `offset` seconds east of UTC: the civil date and time of
`unix + offset`, then `Z` when the offset is zero and `±hh:mm` otherwise. -/
def formatRFC3339 (offset unix : Int) : GoString :=
  let abs := unix + offset
  let date := civilFromDays (abs / 86400)
  let secs := (abs % 86400).toNat
  let zone := offset.tdiv 60
  appendInt date.1 4 ++ 45 :: (appendInt ((date.2.1 : Int) + 1) 2 ++ 45 ::
    (appendInt date.2.2 2 ++ 84 :: (appendInt ((secs / 3600 : Nat) : Int) 2 ++ 58 ::
      (appendInt ((secs % 3600 / 60 : Nat) : Int) 2 ++ 58 ::
        (appendInt ((secs % 60 : Nat) : Int) 2 ++
          (if offset = 0 then [90]
           else (if zone < 0 then 45 else 43) ::
             (appendInt ((zone.natAbs / 60 : Nat) : Int) 2 ++ 58 ::
               appendInt ((zone.natAbs % 60 : Nat) : Int) 2)))))))

/-- The argument of `writer.WriteString` in `main`:
`fmt.Sprintf("%s  %s  %d\n", sampleTime.Format(time.RFC3339), metricName, reqCount)`.
The parameter `localOffset` is the offset of the process's local time zone, in which
`time.Unix` places the sample time. -/
def recordLine (localOffset : Int → Int) (r : SampleRecord) : GoString :=
  formatRFC3339 (localOffset r.sampleTime) r.sampleTime ++ 32 :: 32 ::
    (goString r.metricName ++ 32 :: 32 :: (decimal r.value ++ [10]))

/-- Specification side: the text `yyyy-mm-ddTHH:MM:SS` of civil fields; `month` is the index
of the month (January is 0). -/
def isoCivil (year month day hour min sec : Nat) : GoString :=
  fourDigits year ++ 45 :: (twoDigits (month + 1) ++ 45 :: (twoDigits day ++ 84 ::
    (twoDigits hour ++ 58 :: (twoDigits min ++ 58 :: twoDigits sec))))

/-- Specification side: the local time zone is UTC. -/
def utcZone : Int → Int := fun _ => 0

/-- State of the `bufio.Writer` on standard output: the bytes passed on to standard output
so far and the bytes held in the buffer of 4096 bytes. -/
structure Writer where
  written : GoString
  buf : GoString
  deriving DecidableEq, Repr

/-- Model of `bufio.NewWriter(os.Stdout)`. -/
def newWriter : Writer := ⟨[], []⟩

/-- Model of `Writer.Flush`. -/
def Writer.Flush (w : Writer) : Writer := ⟨w.written ++ w.buf, []⟩

/-- Model of `Writer.WriteString`: a string that fits is appended to the buffer; a longer
one is passed on whole when the buffer is empty, and otherwise fills the buffer, which is
flushed, before its rest is treated the same way. -/
def Writer.WriteString (w : Writer) (s : GoString) : Writer :=
  if s.length ≤ 4096 - w.buf.length then ⟨w.written, w.buf ++ s⟩
  else if w.buf.length = 0 then ⟨w.written ++ s, []⟩
  else
    let n := 4096 - w.buf.length
    let rest := s.drop n
    if rest.length ≤ 4096 then ⟨w.written ++ w.buf ++ s.take n, rest⟩
    else ⟨w.written ++ w.buf ++ s.take n ++ rest, []⟩

/-- The constant `bufio.MaxScanTokenSize`, the largest buffer of a `bufio.Scanner` made by
`bufio.NewScanner`. -/
def maxScanTokenSize : Nat := 64 * 1024

/-- Model of `dropCR` of `bufio.ScanLines`: one trailing carriage return is dropped. -/
def dropCR (data : GoString) : GoString :=
  if data.getLast? = some 13 then data.dropLast else data

/-- The values of `scanner.Text()` over the iterations of `for scanner.Scan()`.  The input
is given by its lines: the byte sequences that end at a line feed or at the end of the
input.  The scanner yields a line, without one trailing carriage return, when the line feed
or the end of the input is found with the line in a buffer of at most `maxScanTokenSize`
bytes, that is when the line has fewer than `maxScanTokenSize` bytes.  At the first longer
line `Scan` returns false (the error `bufio.ErrTooLong`, which `main` never reads through
`scanner.Err()`), which ends the loop as the end of the input does. -/
def scannerLines (lines : List GoString) : List GoString :=
  (lines.takeWhile (fun l => l.length < maxScanTokenSize)).map dropCR

/-- Text of `err.Error()` for the error that `extractRequestTime` returns on `line`: the
text of the two `fmt.Errorf` calls, or the text of the error of `time.Parse`.  The latter
is determined by the value passed to `time.Parse`; it is given by the parameter
`parseErrorText`. -/
def errorText (parseErrorText : GoString → GoString) (line : GoString) :
    ExtractError ParseError → GoString
  | .malformedLine l => goString "line does not contain a brace-enclosed timestamp: " ++ l
  | .parseError _ =>
    parseErrorText
      (goSlice line (stringsIndex line openBracket + 1) (stringsIndex line closeBracket))

/-- The bytes that `fmt.Printf("line %d: failed to extract timestamp: %s", lineno, err)`
writes to standard output. -/
def failureMessage (parseErrorText : GoString → GoString) (lineno : Nat) (line : GoString)
    (err : ExtractError ParseError) : GoString :=
  goString "line " ++ (decimal lineno ++
    (goString ": failed to extract timestamp: " ++ errorText parseErrorText line err))

/-- How a run of `main` ends: by returning from `main` (exit code 0), or by `os.Exit(1)`
after the message with the line number and the extraction error. -/
inductive Exit where
  | success
  | failure (lineno : Nat) (err : ExtractError ParseError)
  deriving DecidableEq, Repr

/-- Outcome of a run: the bytes that reached standard output, through `writer` or through
`fmt.Printf`; the bytes handed to `writer` that were still in its buffer when the process
ended; and how the run ended. -/
structure RunResult where
  stdout : GoString
  buffered : GoString
  exit : Exit
  deriving DecidableEq, Repr

/-- The `if` statement of the loop body on the writer: the record, when there is one, is
formatted and handed to `writer.WriteString`. -/
def writeRecord (localOffset : Int → Int) (w : Writer) : Option SampleRecord → Writer
  | some r => w.WriteString (recordLine localOffset r)
  | none => w

/-- The loop of `main` on the lines that the scanner yields, with the buffered writer.  A
line whose timestamp cannot be extracted ends the run: `fmt.Printf` writes the message
straight to standard output and `os.Exit(1)` ends the process without running the deferred
`writer.Flush()`, so the bytes in the buffer stay there.  When the scanner yields no more
lines `main` returns and the deferred `writer.Flush()` runs. -/
def runLoop (localOffset : Int → Int) (parseErrorText : GoString → GoString) (cfg : Config) :
    LoopState → Writer → List GoString → RunResult
  | _, w, [] => ⟨w.Flush.written, w.Flush.buf, .success⟩
  | s, w, line :: rest =>
    match extractRequestTime timeParse (stringsTrimSpace line) with
    | .error err =>
      ⟨w.written ++ failureMessage parseErrorText s.lineno (stringsTrimSpace line) err,
        w.buf, .failure s.lineno err⟩
    | .ok t =>
      let r := processEvent cfg s t.unix
      runLoop localOffset parseErrorText cfg r.1 (writeRecord localOffset w r.2) rest

/-- A run of `main` on the lines of the input files, in order. -/
def runMain (localOffset : Int → Int) (parseErrorText : GoString → GoString) (cfg : Config)
    (lines : List GoString) : RunResult :=
  runLoop localOffset parseErrorText cfg initState newWriter (scannerLines lines)

end Apache2Metric

namespace Apache2Metric

/-! ## Lemmas on bytes and slices -/

theorem firstPos_cons_self (c : Byte) (rest : GoString) :
    firstPos (c :: rest) c = 0 := by
  simp [firstPos, List.takeWhile]

theorem firstPos_cons_ne {b c : Byte} (h : b ≠ c) (rest : GoString) :
    firstPos (b :: rest) c = firstPos rest c + 1 := by
  simp [firstPos, List.takeWhile, h]

theorem indexFrom_eq (c : Byte) (s : GoString) (i : Int) :
    indexFrom c s i = if c ∈ s then i + (firstPos s c : Int) else -1 := by
  induction s generalizing i with
  | nil => simp [indexFrom]
  | cons b rest ih =>
    by_cases hb : b = c
    · subst hb
      simp [indexFrom, firstPos, List.takeWhile]
    · have hc : ¬ c = b := fun h => hb h.symm
      simp only [indexFrom, if_neg hb, ih, List.mem_cons, hc, false_or, firstPos]
      split
      · simp [List.takeWhile, hb]
        ring
      · rfl

theorem stringsIndex_of_mem {c : Byte} {s : GoString} (h : c ∈ s) :
    stringsIndex s c = (firstPos s c : Int) := by
  simp [stringsIndex, indexFrom_eq, h]

theorem stringsIndex_of_not_mem {c : Byte} {s : GoString} (h : c ∉ s) :
    stringsIndex s c = -1 := by
  simp [stringsIndex, indexFrom_eq, h]

theorem take_firstPos (c : Byte) (s : GoString) :
    s.take (firstPos s c) = s.takeWhile (fun b => b ≠ c) := by
  induction s with
  | nil => simp [firstPos]
  | cons b rest ih =>
    by_cases hb : b = c
    · simp [firstPos, List.takeWhile, hb]
    · simp only [firstPos] at ih
      simp only [firstPos, List.takeWhile, hb, ne_eq, not_false_eq_true, decide_True,
        List.length_cons, List.take_succ_cons, ih]

theorem slice_eq_textBetween (line : GoString)
    (h : firstPos line openBracket < firstPos line closeBracket) :
    (line.take (firstPos line closeBracket)).drop (firstPos line openBracket + 1)
      = textBetween line := by
  induction line with
  | nil => simp [firstPos] at h
  | cons b rest ih =>
    by_cases hc : b = closeBracket
    · simp [firstPos, List.takeWhile, hc] at h
    · by_cases ho : b = openBracket
      · have e1 : firstPos (b :: rest) openBracket = 0 := by
          simp [firstPos, List.takeWhile, ho]
        have e2 : firstPos (b :: rest) closeBracket = firstPos rest closeBracket + 1 := by
          simp [firstPos, List.takeWhile, hc]
        rw [e1, e2]
        simp only [List.take_succ_cons, zero_add, List.drop_succ_cons, List.drop_zero]
        rw [take_firstPos]
        simp [textBetween, List.dropWhile, ho]
      · have e1 : firstPos (b :: rest) openBracket = firstPos rest openBracket + 1 := by
          simp [firstPos, List.takeWhile, ho]
        have e2 : firstPos (b :: rest) closeBracket = firstPos rest closeBracket + 1 := by
          simp [firstPos, List.takeWhile, hc]
        rw [e1, e2] at h
        rw [e1, e2]
        simp only [List.take_succ_cons, List.drop_succ_cons]
        rw [ih (by omega)]
        simp [textBetween, List.dropWhile, ho]

theorem firstPos_ne (l : GoString) :
    openBracket ∈ l → closeBracket ∈ l →
      firstPos l openBracket ≠ firstPos l closeBracket := by
  induction l with
  | nil => intro hm; simp at hm
  | cons b rest ih =>
    intro hm1 hm2
    by_cases hb1 : b = openBracket
    · have hb2 : b ≠ closeBracket := by rw [hb1]; decide
      rw [hb1, firstPos_cons_self, firstPos_cons_ne (by decide)]
      omega
    · by_cases hb2 : b = closeBracket
      · rw [hb2, firstPos_cons_self, firstPos_cons_ne (by decide)]
        omega
      · have hm1r : openBracket ∈ rest := by
          rcases List.mem_cons.mp hm1 with h | h
          · exact absurd h.symm hb1
          · exact h
        have hm2r : closeBracket ∈ rest := by
          rcases List.mem_cons.mp hm2 with h | h
          · exact absurd h.symm hb2
          · exact h
        have := ih hm1r hm2r
        rw [firstPos_cons_ne hb1, firstPos_cons_ne hb2]
        omega

/-! ## Lemmas on `float64` rounding -/

theorem log2Fuel_spec : ∀ (fuel n : Nat), 1 ≤ n → n ≤ fuel →
    2 ^ log2Fuel fuel n ≤ n ∧ n < 2 ^ (log2Fuel fuel n + 1) := by
  intro fuel
  induction fuel with
  | zero => intro n h1 h2; omega
  | succ fuel ih =>
    intro n h1 h2
    unfold log2Fuel
    by_cases hn : n < 2
    · rw [if_pos hn]
      simp
      omega
    · rw [if_neg hn]
      obtain ⟨ha, hb⟩ := ih (n / 2) (by omega) (by omega)
      rw [pow_succ] at hb
      rw [pow_succ, pow_succ, pow_succ]
      generalize 2 ^ log2Fuel fuel (n / 2) = a at ha hb
      constructor <;> omega

theorem log2Nat_spec (n : Nat) (h : 1 ≤ n) :
    2 ^ log2Nat n ≤ n ∧ n < 2 ^ (log2Nat n + 1) :=
  log2Fuel_spec n n h le_rfl

theorem two_zpow_split (k : Int) :
    (2 : ℚ) ^ k = (2 : ℚ) ^ k.toNat / (2 : ℚ) ^ (-k).toNat := by
  rcases le_total 0 k with h | h
  · have e1 : (-k).toNat = 0 := by omega
    have e2 : ((k.toNat : Nat) : Int) = k := by omega
    rw [e1, pow_zero, div_one, ← zpow_natCast, e2]
  · have e1 : k.toNat = 0 := by omega
    have e2 : (((-k).toNat : Nat) : Int) = -k := by omega
    rw [e1, pow_zero, one_div, ← zpow_natCast, e2, zpow_neg, inv_inv]

theorem floorLog2_spec (p q : Nat) (hp : 1 ≤ p) (hq : 1 ≤ q) :
    (2 : ℚ) ^ floorLog2 p q ≤ (p : ℚ) / q ∧ (p : ℚ) / q < (2 : ℚ) ^ (floorLog2 p q + 1) := by
  obtain ⟨pa, pb⟩ := log2Nat_spec p hp
  obtain ⟨qa, qb⟩ := log2Nat_spec q hq
  have hq0 : (0 : ℚ) < q := by exact_mod_cast hq
  have pa' : (2 : ℚ) ^ (log2Nat p : Int) ≤ p := by
    rw [zpow_natCast]; exact_mod_cast pa
  have pb' : (p : ℚ) < (2 : ℚ) ^ ((log2Nat p : Int) + 1) := by
    rw [← Nat.cast_succ, zpow_natCast]; exact_mod_cast pb
  have qa' : (2 : ℚ) ^ (log2Nat q : Int) ≤ q := by
    rw [zpow_natCast]; exact_mod_cast qa
  have qb' : (q : ℚ) < (2 : ℚ) ^ ((log2Nat q : Int) + 1) := by
    rw [← Nat.cast_succ, zpow_natCast]; exact_mod_cast qb
  have h2 : (0 : ℚ) < 2 := by norm_num
  have hpos : ∀ j : Int, (0 : ℚ) < (2 : ℚ) ^ j := fun j => zpow_pos h2 j
  unfold floorLog2
  dsimp only
  generalize (log2Nat p : Int) = a at pa' pb'
  generalize (log2Nat q : Int) = b at qa' qb'
  have test : (q * 2 ^ (a - b).toNat ≤ p * 2 ^ (-(a - b)).toNat) ↔
      (2 : ℚ) ^ (a - b) ≤ (p : ℚ) / q := by
    rw [two_zpow_split (a - b), div_le_div_iff₀ (by positivity) hq0]
    have : ((q * 2 ^ (a - b).toNat : Nat) : ℚ) ≤ ((p * 2 ^ (-(a - b)).toNat : Nat) : ℚ) ↔
        q * 2 ^ (a - b).toNat ≤ p * 2 ^ (-(a - b)).toNat := Nat.cast_le
    rw [← this]
    push_cast
    constructor <;> intro h <;> linarith
  have ea : (2 : ℚ) ^ (a + 1) = 2 ^ (a - b + 1) * 2 ^ b := by
    rw [← zpow_add₀ (by norm_num)]; congr 1; ring
  have eb : (2 : ℚ) ^ a = 2 ^ (a - b - 1) * 2 ^ (b + 1) := by
    rw [← zpow_add₀ (by norm_num)]; congr 1; ring
  split
  · rename_i h
    refine ⟨test.mp h, ?_⟩
    rw [div_lt_iff₀ hq0]
    calc (p : ℚ) < 2 ^ (a + 1) := pb'
      _ = 2 ^ (a - b + 1) * 2 ^ b := ea
      _ ≤ 2 ^ (a - b + 1) * q := by
        apply mul_le_mul_of_nonneg_left qa' (le_of_lt (hpos _))
  · rename_i h
    have h' : (p : ℚ) / q < (2 : ℚ) ^ (a - b) := by
      rw [← not_le]; exact fun hh => h (test.mpr hh)
    constructor
    · rw [le_div_iff₀ hq0]
      calc (2 : ℚ) ^ (a - b - 1) * q ≤ 2 ^ (a - b - 1) * 2 ^ (b + 1) :=
            mul_le_mul_of_nonneg_left (le_of_lt qb') (le_of_lt (hpos _))
        _ = 2 ^ a := eb.symm
        _ ≤ p := pa'
    · have : a - b - 1 + 1 = a - b := by ring
      rw [this]; exact h'

theorem roundHalfEven_spec (p q : Nat) (hq : 1 ≤ q) :
    2 * (roundHalfEven p q * q) ≤ 2 * p + q ∧ 2 * p ≤ 2 * (roundHalfEven p q * q) + q := by
  have hdm := Nat.div_add_mod p q
  have hr := Nat.mod_lt p hq
  unfold roundHalfEven
  dsimp only
  generalize p / q = f at hdm
  generalize p % q = r at hdm hr
  have e1 : (f + 1) * q = q * f + q := by ring
  have e2 : f * q = q * f := by ring
  split_ifs <;> (try rw [e1]) <;> (try rw [e2]) <;> constructor <;> omega

theorem f64RoundPos_spec (p q : Nat) (hp : 1 ≤ p) (hq : 1 ≤ q) :
    (2 : ℚ) ^ ((f64RoundPos p q).2 + 52) ≤ (p : ℚ) / q ∧
    (p : ℚ) / q < (2 : ℚ) ^ ((f64RoundPos p q).2 + 53) ∧
    |((f64RoundPos p q).1 : ℚ) - (p : ℚ) / q / (2 : ℚ) ^ (f64RoundPos p q).2| ≤ 1 / 2 := by
  obtain ⟨la, lb⟩ := floorLog2_spec p q hp hq
  unfold f64RoundPos
  dsimp only
  have e1 : floorLog2 p q - 52 + 52 = floorLog2 p q := by ring
  have e2 : floorLog2 p q - 52 + 53 = floorLog2 p q + 1 := by ring
  rw [e1, e2]
  refine ⟨la, lb, ?_⟩
  generalize floorLog2 p q - 52 = e
  have hq0 : (0 : ℚ) < q := by exact_mod_cast hq
  have hA : (0 : ℚ) < (2 : ℚ) ^ e.toNat := by positivity
  have hB : (0 : ℚ) < (2 : ℚ) ^ (-e).toNat := by positivity
  have hq' : 1 ≤ q * 2 ^ e.toNat := Nat.one_le_iff_ne_zero.mpr (by positivity)
  obtain ⟨ra, rb⟩ := roundHalfEven_spec (p * 2 ^ (-e).toNat) (q * 2 ^ e.toNat) hq'
  generalize roundHalfEven (p * 2 ^ (-e).toNat) (q * 2 ^ e.toNat) = m at ra rb
  have ra' : (2 : ℚ) * (m * (q * 2 ^ e.toNat)) ≤ 2 * (p * 2 ^ (-e).toNat) + q * 2 ^ e.toNat := by
    exact_mod_cast ra
  have rb' : (2 : ℚ) * (p * 2 ^ (-e).toNat) ≤ 2 * (m * (q * 2 ^ e.toNat)) + q * 2 ^ e.toNat := by
    exact_mod_cast rb
  rw [two_zpow_split e]
  generalize (2 : ℚ) ^ e.toNat = A at hA ra' rb'
  generalize (2 : ℚ) ^ (-e).toNat = B at hB ra' rb'
  have hqA : (0 : ℚ) < q * A := mul_pos hq0 hA
  have key : (p : ℚ) / q / (A / B) = (p * B) / (q * A) := by
    field_simp
  rw [key, abs_le]
  constructor
  · rw [neg_le_sub_iff_le_add, div_le_iff₀ hqA]
    linarith
  · rw [sub_le_iff_le_add, ← sub_le_iff_le_add', le_div_iff₀ hqA]
    linarith

theorem nearest_int (y : ℚ) (m : Int) (h : |(m : ℚ) - y| ≤ 1 / 2) (n : Int) :
    |(m : ℚ) - y| ≤ |(n : ℚ) - y| := by
  by_cases hnm : n = m
  · rw [hnm]
  · have h1 : (1 : ℚ) ≤ |(n : ℚ) - m| := by
      have : (1 : Int) ≤ |n - m| := Int.one_le_abs (sub_ne_zero.mpr hnm)
      exact_mod_cast this
    have h2 : |(n : ℚ) - m| ≤ |(n : ℚ) - y| + |(m : ℚ) - y| := by
      have := abs_sub_le (n : ℚ) y m
      rw [abs_sub_comm y (m : ℚ)] at this
      exact this
    linarith

theorem f64Round_of_pos (x : ℚ) (hx : 0 < x) :
    f64Round x = ((f64RoundPos x.num.natAbs x.den).1 : ℚ)
      * (2 : ℚ) ^ (f64RoundPos x.num.natAbs x.den).2 := by
  have hn : 0 < x.num := Rat.num_pos.mpr hx
  unfold f64Round
  rw [if_neg (ne_of_gt hn), Int.sign_eq_one_of_pos hn]
  push_cast
  ring

theorem natAbs_div_den (x : ℚ) (hx : 0 < x) : ((x.num.natAbs : Nat) : ℚ) / x.den = x := by
  have hn : 0 < x.num := Rat.num_pos.mpr hx
  have : ((x.num.natAbs : Nat) : ℚ) = ((x.num : Int) : ℚ) := by
    have h : ((x.num.natAbs : Nat) : Int) = x.num := Int.natAbs_of_nonneg (le_of_lt hn)
    rw [← h, Int.cast_natCast, h]
  rw [this]
  exact Rat.num_div_den x

theorem f64Round_pos_nearest (x : ℚ) (hx : 0 < x) (z : ℚ) (hz : isF64 z) :
    |f64Round x - x| ≤ |z - x| := by
  have hn : 0 < x.num := Rat.num_pos.mpr hx
  have hp : 1 ≤ x.num.natAbs := by omega
  have hq : 1 ≤ x.den := x.den_pos
  obtain ⟨sa, _, sc⟩ := f64RoundPos_spec x.num.natAbs x.den hp hq
  rw [f64Round_of_pos x hx]
  rw [natAbs_div_den x hx] at sa sc
  generalize (f64RoundPos x.num.natAbs x.den).1 = m at sc
  generalize (f64RoundPos x.num.natAbs x.den).2 = e at sa sc
  have hP : (0 : ℚ) < (2 : ℚ) ^ e := zpow_pos (by norm_num) e
  have hx' : x = x / (2 : ℚ) ^ e * (2 : ℚ) ^ e := by field_simp
  have hy : (2 : ℚ) ^ (52 : Nat) ≤ x / (2 : ℚ) ^ e := by
    rw [le_div_iff₀ hP, ← zpow_natCast, ← zpow_add₀ (by norm_num)]
    have : ((52 : Nat) : Int) + e = e + 52 := by push_cast; ring
    rw [this]; exact sa
  have sc' : |((m : Int) : ℚ) - x / (2 : ℚ) ^ e| ≤ 1 / 2 := by exact_mod_cast sc
  have grid : ∀ n : Int, |(m : ℚ) * (2 : ℚ) ^ e - x| ≤ |(n : ℚ) * (2 : ℚ) ^ e - x| := by
    intro n
    have h := nearest_int (x / (2 : ℚ) ^ e) (m : Int) sc' n
    have e1 : ∀ t : ℚ, t * (2 : ℚ) ^ e - x = (t - x / (2 : ℚ) ^ e) * (2 : ℚ) ^ e := by
      intro t; field_simp
    rw [e1, e1, abs_mul, abs_mul]
    have h' : |(((m : Nat) : Int) : ℚ) - x / (2 : ℚ) ^ e| = |(m : ℚ) - x / (2 : ℚ) ^ e| := by
      push_cast; rfl
    rw [h'] at h
    exact mul_le_mul_of_nonneg_right h (abs_nonneg _)
  obtain ⟨k, j, hk, rfl⟩ := hz
  rcases le_or_lt e j with hej | hje
  · have : (k : ℚ) * (2 : ℚ) ^ j = ((k * 2 ^ (j - e).toNat : Int) : ℚ) * (2 : ℚ) ^ e := by
      push_cast
      rw [mul_assoc, ← zpow_natCast, ← zpow_add₀ (by norm_num)]
      congr 2
      omega
    rw [this]
    exact grid _
  · have hk' : |(k : ℚ)| ≤ (2 : ℚ) ^ (53 : Nat) := by
      have : ((|k| : Int) : ℚ) ≤ (((2 : Int) ^ 53 : Int) : ℚ) := Int.cast_le.mpr hk
      push_cast at this
      simpa using this
    have hz1 : (k : ℚ) * (2 : ℚ) ^ j ≤ (2 : ℚ) ^ (e + 52) := by
      have h1 : (k : ℚ) * (2 : ℚ) ^ j ≤ |(k : ℚ)| * (2 : ℚ) ^ j :=
        mul_le_mul_of_nonneg_right (le_abs_self _) (le_of_lt (zpow_pos (by norm_num) j))
      have h2 : |(k : ℚ)| * (2 : ℚ) ^ j ≤ (2 : ℚ) ^ (53 : Nat) * (2 : ℚ) ^ j :=
        mul_le_mul_of_nonneg_right hk' (le_of_lt (zpow_pos (by norm_num) j))
      have h3 : (2 : ℚ) ^ (53 : Nat) * (2 : ℚ) ^ j ≤ (2 : ℚ) ^ (e + 52) := by
        rw [← zpow_natCast, ← zpow_add₀ (by norm_num)]
        apply zpow_le_zpow_right₀ (by norm_num)
        push_cast
        omega
      linarith
    have g := grid 4503599627370496
    have e52 : ((4503599627370496 : Int) : ℚ) * (2 : ℚ) ^ e = (2 : ℚ) ^ (e + 52) := by
      rw [zpow_add₀ (by norm_num)]
      norm_num
      ring
    rw [e52] at g
    have h0 : |(2 : ℚ) ^ (e + 52) - x| = x - (2 : ℚ) ^ (e + 52) := by
      rw [abs_of_nonpos (by linarith)]; ring
    have h1 : |(k : ℚ) * (2 : ℚ) ^ j - x| = x - (k : ℚ) * (2 : ℚ) ^ j := by
      rw [abs_of_nonpos (by linarith)]; ring
    rw [h0] at g
    rw [h1]
    linarith

theorem f64Round_zero : f64Round 0 = 0 := by
  simp [f64Round]

theorem f64Round_neg (x : ℚ) : f64Round (-x) = - f64Round x := by
  unfold f64Round
  by_cases h : x.num = 0
  · simp [h]
  · have h' : ¬ (-x).num = 0 := by simpa using h
    rw [if_neg h, if_neg h']
    simp only [Rat.num_neg_eq_neg_num, Rat.neg_den, Int.natAbs_neg, Int.sign_neg]
    push_cast
    ring

theorem isF64_neg {z : ℚ} (hz : isF64 z) : isF64 (-z) := by
  obtain ⟨k, j, hk, rfl⟩ := hz
  exact ⟨-k, j, by simpa using hk, by push_cast; ring⟩

theorem isF64_zero : isF64 0 := ⟨0, 0, by norm_num, by norm_num⟩

theorem isF64_int (n : Int) (hn : |n| ≤ 2 ^ 53) : isF64 (n : ℚ) :=
  ⟨n, 0, hn, by simp⟩

/-- Rounding returns a nearest `float64`: no representable number is closer to `x`. -/
theorem f64Round_nearest (x z : ℚ) (hz : isF64 z) : |f64Round x - x| ≤ |z - x| := by
  rcases lt_trichotomy x 0 with hx | hx | hx
  · have h := f64Round_pos_nearest (-x) (by linarith) (-z) (isF64_neg hz)
    rw [f64Round_neg] at h
    have e1 : -f64Round x - -x = -(f64Round x - x) := by ring
    have e2 : -z - -x = -(z - x) := by ring
    rwa [e1, e2, abs_neg, abs_neg] at h
  · subst hx
    simp [f64Round_zero]
  · exact f64Round_pos_nearest x hx z hz

theorem f64Round_exact {x : ℚ} (hx : isF64 x) : f64Round x = x := by
  have h := f64Round_nearest x x hx
  simp only [sub_self, abs_zero] at h
  have := abs_nonneg (f64Round x - x)
  have h0 : |f64Round x - x| = 0 := le_antisymm h this
  exact sub_eq_zero.mp (abs_eq_zero.mp h0)

theorem f64Round_le {x z : ℚ} (hz : isF64 z) (h : x ≤ z) : f64Round x ≤ z := by
  have hn := f64Round_nearest x z hz
  rw [abs_of_nonneg (by linarith : (0 : ℚ) ≤ z - x)] at hn
  have := le_abs_self (f64Round x - x)
  linarith

theorem le_f64Round {x z : ℚ} (hz : isF64 z) (h : z ≤ x) : z ≤ f64Round x := by
  have hn := f64Round_nearest x z hz
  rw [abs_of_nonpos (by linarith : z - x ≤ 0)] at hn
  have := neg_abs_le (f64Round x - x)
  linarith

theorem truncToInt64_neg (x : ℚ) : truncToInt64 (-x) = - truncToInt64 x := by
  simp [truncToInt64, Int.neg_tdiv]

theorem truncToInt64_eq {x : ℚ} {n : Int} (h0 : 0 ≤ n) (h1 : (n : ℚ) ≤ x)
    (h2 : x < (n : ℚ) + 1) : truncToInt64 x = n := by
  have hx : 0 ≤ x := le_trans (by exact_mod_cast h0) h1
  have hnum : 0 ≤ x.num := Rat.num_nonneg.mpr hx
  unfold truncToInt64
  rw [Int.tdiv_eq_ediv hnum (by exact_mod_cast (Nat.zero_le x.den)), ← Rat.floor_def']
  exact Int.floor_eq_iff.mpr ⟨h1, h2⟩

theorem neg_tmod (a b : Int) : (-a).tmod b = - a.tmod b := by
  rw [Int.tmod_def, Int.tmod_def, Int.neg_tdiv]
  ring

theorem Duration.Seconds_neg (d : Duration) :
    Duration.Seconds (-d) = - Duration.Seconds d := by
  unfold Duration.Seconds
  simp only [Int.neg_tdiv, neg_tmod, Int.cast_neg, f64Round_neg, neg_div]
  rw [← neg_add, f64Round_neg]

theorem intervalSeconds_neg (d : Duration) : intervalSeconds (-d) = - intervalSeconds d := by
  unfold intervalSeconds
  rw [Duration.Seconds_neg, truncToInt64_neg]

theorem truncToInt64_nonneg {x : ℚ} (hx : 0 ≤ x) : 0 ≤ truncToInt64 x := by
  unfold truncToInt64
  exact Int.tdiv_nonneg (Rat.num_nonneg.mpr hx) (by exact_mod_cast (Nat.zero_le x.den))

theorem f64Round_nonneg {x : ℚ} (hx : 0 ≤ x) : 0 ≤ f64Round x :=
  le_f64Round isF64_zero hx

theorem Duration.Seconds_nonneg (d : Duration) (h : 0 ≤ d) : 0 ≤ Duration.Seconds d := by
  unfold Duration.Seconds
  have hs : (0 : ℚ) ≤ ((d.tdiv Second : Int) : ℚ) := by
    exact_mod_cast Int.tdiv_nonneg h (by decide)
  have hn : (0 : ℚ) ≤ ((d.tmod Second : Int) : ℚ) := by
    exact_mod_cast Int.tmod_nonneg _ h
  have hb : (0 : ℚ) ≤ f64Round 1000000000 := f64Round_nonneg (by norm_num)
  exact f64Round_nonneg (add_nonneg (f64Round_nonneg hs)
    (f64Round_nonneg (div_nonneg (f64Round_nonneg hn) hb)))

/-- For a non-negative interval the truncated number of seconds is non-negative. -/
theorem intervalSeconds_nonneg (d : Duration) (h : 0 ≤ d) : 0 ≤ intervalSeconds d :=
  truncToInt64_nonneg (Duration.Seconds_nonneg d h)

theorem isF64_billion : isF64 1000000000 :=
  ⟨1000000000, 0, by norm_num, by norm_num⟩

/-- The number `1 - 2^-30 - 2^-40`, a `float64` between `0.999999999` and `1`. -/
theorem isF64_fracBound : isF64 (1099511626751 / 1099511627776) :=
  ⟨1099511626751, -40, by norm_num, by norm_num⟩

theorem seconds_bounds (s r : Int) (hs0 : 0 ≤ s) (hs : s < 16777216)
    (hr0 : 0 ≤ r) (hr : r < 1000000000) :
    (s : ℚ) ≤ f64Round (f64Round (s : ℚ) + f64Round (f64Round (r : ℚ) / f64Round 1000000000)) ∧
    f64Round (f64Round (s : ℚ) + f64Round (f64Round (r : ℚ) / f64Round 1000000000))
      < (s : ℚ) + 1 := by
  have fs : isF64 (s : ℚ) := isF64_int s (by rw [abs_of_nonneg hs0]; omega)
  have fr : isF64 (r : ℚ) := isF64_int r (by rw [abs_of_nonneg hr0]; omega)
  rw [f64Round_exact fs, f64Round_exact fr, f64Round_exact isF64_billion]
  have hr0' : (0 : ℚ) ≤ (r : ℚ) := by exact_mod_cast hr0
  have hr' : (r : ℚ) ≤ 999999999 := by
    have : r ≤ 999999999 := by omega
    exact_mod_cast this
  have hq0 : (0 : ℚ) ≤ f64Round ((r : ℚ) / 1000000000) :=
    f64Round_nonneg (div_nonneg hr0' (by norm_num))
  have hq1 : f64Round ((r : ℚ) / 1000000000) ≤ 1099511626751 / 1099511627776 := by
    apply f64Round_le isF64_fracBound
    rw [div_le_div_iff₀ (by norm_num) (by norm_num)]
    linarith
  generalize f64Round ((r : ℚ) / 1000000000) = q at hq0 hq1
  constructor
  · exact le_f64Round fs (by linarith)
  · have fy : isF64 ((s : ℚ) + 1 - 1 / 536870912) := by
      refine ⟨(s + 1) * 536870912 - 1, -29, ?_, ?_⟩
      · rw [abs_of_nonneg (by omega)]
        norm_num
        omega
      · push_cast
        norm_num
        ring
    have hn := f64Round_nearest ((s : ℚ) + q) _ fy
    have h1 := le_abs_self (f64Round ((s : ℚ) + q) - ((s : ℚ) + q))
    rcases abs_cases ((s : ℚ) + 1 - 1 / 536870912 - ((s : ℚ) + q)) with ⟨h2, _⟩ | ⟨h2, _⟩
    · rw [h2] at hn
      linarith
    · rw [h2] at hn
      linarith

theorem seconds_whole (s : Int) (hs0 : 0 ≤ s) (hs : s ≤ 2 ^ 53) :
    f64Round (f64Round (s : ℚ) + f64Round (f64Round ((0 : Int) : ℚ) / f64Round 1000000000))
      = (s : ℚ) := by
  have fs : isF64 (s : ℚ) := isF64_int s (by rw [abs_of_nonneg hs0]; exact hs)
  simp only [Int.cast_zero, f64Round_zero, zero_div, add_zero, f64Round_exact fs]

/-- For a non-negative interval that is a whole number of seconds, or is shorter than
`2^24` seconds, `int64(samplingInterval.Seconds())` is the interval divided by one second,
rounded down. -/
theorem intervalSeconds_of_nonneg (d : Int) (h0 : 0 ≤ d)
    (h : (d % 1000000000 = 0 ∧ d ≤ 9223372036854775807) ∨ d < 16777216000000000) :
    intervalSeconds d = d / 1000000000 := by
  have hdiv : d.tdiv Second = d / 1000000000 := Int.tdiv_eq_ediv h0 (by decide)
  have hmod : d.tmod Second = d % 1000000000 := Int.tmod_eq_emod h0 (by decide)
  have hs0 : 0 ≤ d / 1000000000 := Int.ediv_nonneg h0 (by decide)
  have hr0 : 0 ≤ d % 1000000000 := Int.emod_nonneg d (by decide)
  have hr1 : d % 1000000000 < 1000000000 := Int.emod_lt_of_pos d (by decide)
  have hd := Int.ediv_add_emod d 1000000000
  unfold intervalSeconds Duration.Seconds
  dsimp only
  rw [hdiv, hmod]
  rcases h with ⟨hw, hmax⟩ | hsmall
  · rw [hw, seconds_whole _ hs0 (by norm_num; omega)]
    exact truncToInt64_eq hs0 le_rfl (by linarith)
  · obtain ⟨b1, b2⟩ := seconds_bounds (d / 1000000000) (d % 1000000000) hs0 (by omega) hr0 hr1
    exact truncToInt64_eq hs0 b1 b2

/-- For an interval that is a whole number of seconds (within the `int64` range), or whose
magnitude is below `2^24` seconds, `int64(samplingInterval.Seconds())` is the interval
divided by one second, truncated toward zero. -/
theorem intervalSeconds_eq_tdiv (d : Int)
    (h : (d.tmod 1000000000 = 0 ∧ isInt64 d) ∨ |d| < 16777216000000000) :
    intervalSeconds d = d.tdiv 1000000000 := by
  rcases le_total 0 d with h0 | h0
  · rw [Int.tdiv_eq_ediv h0 (by decide)]
    apply intervalSeconds_of_nonneg d h0
    rcases h with ⟨hw, hr⟩ | hs
    · left
      rw [Int.tmod_eq_emod h0 (by decide)] at hw
      exact ⟨hw, hr.2⟩
    · right
      rw [abs_of_nonneg h0] at hs
      exact hs
  · have hn : 0 ≤ -d := by omega
    have key : intervalSeconds (-d) = (-d) / 1000000000 := by
      apply intervalSeconds_of_nonneg (-d) hn
      rcases h with ⟨hw, hr⟩ | hs
      · by_cases hmin : d = -9223372036854775808
        · subst hmin
          exact absurd hw (by decide)
        · left
          have : (-d).tmod 1000000000 = 0 := by rw [neg_tmod, hw]; rfl
          rw [Int.tmod_eq_emod hn (by decide)] at this
          obtain ⟨hr1, hr2⟩ := hr
          exact ⟨this, by omega⟩
      · right
        rw [abs_of_nonpos h0] at hs
        exact hs
    rw [intervalSeconds_neg, ← Int.tdiv_eq_ediv hn (by decide), Int.neg_tdiv] at key
    omega

/-! ## Lemmas on the accumulator loop -/

theorem processEvent_reqCount (cfg : Config) (s : LoopState) (t : Int) :
    (processEvent cfg s t).1.reqCount = s.reqCount + 1 := by
  unfold processEvent
  dsimp only
  split_ifs <;> rfl

theorem processEvent_value (cfg : Config) (s : LoopState) (t : Int) (r : SampleRecord)
    (h : (processEvent cfg s t).2 = some r) : r.value = s.reqCount := by
  unfold processEvent at h
  dsimp only at h
  split_ifs at h
  simp only [Option.some.injEq] at h
  rw [← h]

theorem runTrace_value (cfg : Config) (ts : List Int) :
    ∀ (s : LoopState) (i : Nat) (r : SampleRecord),
      (runTrace cfg s ts).2[i]? = some (some r) → r.value = s.reqCount + i := by
  induction ts with
  | nil => intro s i r h; simp [runTrace] at h
  | cons t ts ih =>
    intro s i r h
    cases i with
    | zero =>
      simp only [runTrace, List.getElem?_cons_zero, Option.some.injEq] at h
      simpa using processEvent_value cfg s t r h
    | succ j =>
      simp only [runTrace, List.getElem?_cons_succ] at h
      have := ih _ j r h
      rw [processEvent_reqCount] at this
      omega

theorem runTrace_values_sorted (cfg : Config) (ts : List Int) :
    ∀ (s : LoopState),
      (∀ r ∈ (runTrace cfg s ts).2.reduceOption, s.reqCount ≤ r.value) ∧
      ((runTrace cfg s ts).2.reduceOption.map (fun r => r.value)).Pairwise (· ≤ ·) := by
  induction ts with
  | nil => intro s; simp [runTrace]
  | cons t ts ih =>
    intro s
    obtain ⟨ih1, ih2⟩ := ih (processEvent cfg s t).1
    rw [processEvent_reqCount] at ih1
    cases hr : (processEvent cfg s t).2 with
    | none =>
      simp only [runTrace, hr, List.reduceOption_cons_of_none]
      exact ⟨fun r hmem => by have := ih1 r hmem; omega, ih2⟩
    | some r0 =>
      have hv := processEvent_value cfg s t r0 hr
      simp only [runTrace, hr, List.reduceOption_cons_of_some, List.mem_cons, List.map_cons,
        List.pairwise_cons, List.mem_map]
      refine ⟨?_, ?_, ih2⟩
      · rintro r (rfl | hmem)
        · omega
        · have := ih1 r hmem; omega
      · rintro v ⟨r, hmem, rfl⟩
        have := ih1 r hmem
        omega

theorem processEvent_init (cfg : Config) (c n : Nat) (t : Int) :
    processEvent cfg ⟨c, n, none⟩ t = processEvent cfg ⟨c, n, some t⟩ t := rfl

theorem processEvent_some (cfg : Config) (c n : Nat) (L t : Int) :
    processEvent cfg ⟨c, n, some L⟩ t =
      if t - L > intervalSeconds cfg.samplingInterval then
        (⟨c + 1, n + 1, some (L + intervalSeconds cfg.samplingInterval)⟩,
          some ⟨L + intervalSeconds cfg.samplingInterval, cfg.metricName, c⟩)
      else (⟨c + 1, n + 1, some L⟩, none) := rfl

/-- From a state whose last sample time is `L`, the records written have sample times
`L + I`, `L + 2 I`, ... where `I` is `int64(samplingInterval.Seconds())`, and the final
last sample time is `L` plus `I` times the number of records. -/
theorem runTrace_sampleTimes (cfg : Config) (ts : List Int) :
    ∀ (c n : Nat) (L : Int),
      (∀ (j : Nat) (r : SampleRecord),
        (runTrace cfg ⟨c, n, some L⟩ ts).2.reduceOption[j]? = some r →
          r.sampleTime = L + ((j : Int) + 1) * intervalSeconds cfg.samplingInterval) ∧
      (runTrace cfg ⟨c, n, some L⟩ ts).1.lastSampleTime =
        some (L + ((runTrace cfg ⟨c, n, some L⟩ ts).2.reduceOption.length : Int)
          * intervalSeconds cfg.samplingInterval) := by
  induction ts with
  | nil => intro c n L; simp [runTrace]
  | cons t ts ih =>
    intro c n L
    simp only [runTrace]
    rw [processEvent_some]
    split_ifs with hc
    · obtain ⟨ih1, ih2⟩ := ih (c + 1) (n + 1) (L + intervalSeconds cfg.samplingInterval)
      simp only [List.reduceOption_cons_of_some, List.length_cons]
      constructor
      · intro j r hj
        cases j with
        | zero =>
          simp only [List.getElem?_cons_zero, Option.some.injEq] at hj
          rw [← hj]
          simp
        | succ j =>
          simp only [List.getElem?_cons_succ] at hj
          rw [ih1 j r hj]
          push_cast
          ring
      · rw [ih2]
        congr 1
        push_cast
        ring
    · obtain ⟨ih1, ih2⟩ := ih (c + 1) (n + 1) L
      simp only [List.reduceOption_cons_of_none]
      exact ⟨ih1, ih2⟩

theorem runTrace_init_cons (cfg : Config) (t : Int) (ts : List Int) :
    runTrace cfg initState (t :: ts) = runTrace cfg ⟨0, 1, some t⟩ (t :: ts) := by
  simp only [runTrace, initState, processEvent_init]

theorem runTrace_chain (cfg : Config) (ts : List Int) :
    ∀ (c n : Nat) (L : Int),
      List.Chain (fun a b : Int => b = a + intervalSeconds cfg.samplingInterval) L
        ((runTrace cfg ⟨c, n, some L⟩ ts).2.reduceOption.map (fun r => r.sampleTime)) := by
  induction ts with
  | nil => intro c n L; simp [runTrace]
  | cons t ts ih =>
    intro c n L
    simp only [runTrace]
    rw [processEvent_some]
    split_ifs with hc
    · simp only [List.reduceOption_cons_of_some, List.map_cons, List.chain_cons, true_and]
      exact ih _ _ _
    · simp only [List.reduceOption_cons_of_none]
      exact ih _ _ _

/-- With a non-negative number of interval seconds, the last sample time and every sample
time written stay between the bounds of the timestamps seen, so the `int64` subtraction
and addition of the loop stay far from the `int64` range for parsed timestamps. -/
theorem runTrace_within_range (cfg : Config) (lo hi : Int)
    (hI : 0 ≤ intervalSeconds cfg.samplingInterval) (ts : List Int) :
    ∀ (c n : Nat) (L : Int), lo ≤ L → L ≤ hi → (∀ t ∈ ts, lo ≤ t ∧ t ≤ hi) →
      (∃ L' : Int, (runTrace cfg ⟨c, n, some L⟩ ts).1.lastSampleTime = some L' ∧
        lo ≤ L' ∧ L' ≤ hi) ∧
      (∀ r ∈ (runTrace cfg ⟨c, n, some L⟩ ts).2.reduceOption,
        lo ≤ r.sampleTime ∧ r.sampleTime ≤ hi) := by
  induction ts with
  | nil => intro c n L h1 h2 _; simp [runTrace, h1, h2]
  | cons t ts ih =>
    intro c n L h1 h2 hts
    have ht := hts t (List.mem_cons_self _ _)
    have hts' : ∀ u ∈ ts, lo ≤ u ∧ u ≤ hi := fun u hu => hts u (List.mem_cons_of_mem _ hu)
    simp only [runTrace]
    rw [processEvent_some]
    split_ifs with hc
    · obtain ⟨ih1, ih2⟩ := ih (c + 1) (n + 1) (L + intervalSeconds cfg.samplingInterval)
        (by omega) (by omega) hts'
      refine ⟨ih1, ?_⟩
      simp only [List.reduceOption_cons_of_some, List.mem_cons]
      rintro r (rfl | hr)
      · dsimp only
        constructor <;> omega
      · exact ih2 r hr
    · obtain ⟨ih1, ih2⟩ := ih (c + 1) (n + 1) L h1 h2 hts'
      simp only [List.reduceOption_cons_of_none]
      exact ⟨ih1, ih2⟩

/-! ## Claims -/

/-- C1, counterexample: with the sampling interval 16777216.999999999 s (which
`Duration.Seconds` rounds up to the `float64` 16777217), an event 16777217 s after the last
sample time is strictly more than the interval after it, and yet no record is emitted. -/
theorem emission_rule_fails_for_long_fractional_interval :
    (0 : Int) ≤ 16777216999999999 ∧
    (16777216999999999 : Int) < (16777217 - 0) * 1000000000 ∧
    trace ⟨"reqcount", 16777216999999999⟩ [0, 16777217] = [none, none] ∧
    (processEvent ⟨"reqcount", 16777216999999999⟩ ⟨1, 2, some 0⟩ 16777217).2 = none := by
  decide!

/-- C1, amended: for every non-negative sampling interval that is a whole number of seconds
or is shorter than `2^24` seconds (fractional intervals included), an event after the first,
with timestamp `t` and last sample time `L`, emits a record if and only if `t - L` is
strictly greater than the sampling interval; an event with `t - L` equal to the interval
emits nothing. -/
theorem emission_rule (metricName : String) (d : Int) (c n : Nat) (L t : Int)
    (h0 : 0 ≤ d)
    (h : (d % 1000000000 = 0 ∧ d ≤ 9223372036854775807) ∨ d < 16777216000000000) :
    ((processEvent ⟨metricName, d⟩ ⟨c, n, some L⟩ t).2 ≠ none ↔
      d < (t - L) * 1000000000) ∧
    ((t - L) * 1000000000 = d →
      (processEvent ⟨metricName, d⟩ ⟨c, n, some L⟩ t).2 = none) := by
  have hI : intervalSeconds d = d / 1000000000 := intervalSeconds_of_nonneg d h0 h
  rw [processEvent_some]
  dsimp only
  rw [hI]
  constructor
  · split_ifs with hc
    · simp only [ne_eq, reduceCtorEq, not_false_eq_true, true_iff]
      omega
    · simp only [ne_eq, not_true_eq_false, false_iff]
      omega
  · intro he
    rw [if_neg (by omega)]

/-- Witness for C1: the interval 1.5 s and an event 2 s after the last sample time. -/
theorem emission_rule_witness :
    (0 : Int) ≤ 1500000000 ∧ (1500000000 : Int) < 16777216000000000 ∧
    ((processEvent ⟨"reqcount", 1500000000⟩ ⟨3, 4, some 100⟩ 102).2 ≠ none ↔
      (1500000000 : Int) < (102 - 100) * 1000000000) :=
  ⟨by decide, by decide,
    (emission_rule "reqcount" 1500000000 3 4 100 102 (by decide) (Or.inr (by decide))).1⟩

/-- C2: for every input sequence of events and every sampling interval, the record
triggered by the event at 0-based position `i` carries the value `i`, the number of events
that came before it, and the values of the records written form a non-decreasing
sequence. -/
theorem emitted_value_counts_earlier_events (cfg : Config) (ts : List Int) :
    (∀ (i : Nat) (r : SampleRecord), (trace cfg ts)[i]? = some (some r) → r.value = i) ∧
    ((output cfg ts).map (fun r => r.value)).Pairwise (· ≤ ·) := by
  refine ⟨fun i r h => ?_, (runTrace_values_sorted cfg ts initState).2⟩
  have := runTrace_value cfg ts initState i r h
  simpa [initState] using this

/-- C3, counterexample: with the sampling interval 1500 ms, an emission from the last
sample time 0 has sample time 1 s, not 0 + 1.5 s. -/
theorem sampleTime_is_not_last_plus_fractional_interval :
    processEvent ⟨"reqcount", 1500000000⟩ ⟨1, 2, some 0⟩ 2
      = (⟨2, 3, some 1⟩, some ⟨1, "reqcount", 1⟩) ∧
    (1 : Int) * 1000000000 ≠ 0 * 1000000000 + 1500000000 := by
  decide!

/-- C3, amended: for every sampling interval that is a whole number of seconds, or whose
magnitude is below `2^24` seconds, an emission from the last sample time `L` has sample
time `L` plus the interval truncated toward zero to whole seconds (so `L` plus the interval
when the interval is a whole number of seconds), and the last sample time is afterwards
equal to that sample time. -/
theorem sampleTime_is_last_plus_truncated_interval (metricName : String) (d : Int)
    (c n : Nat) (L t : Int) (s' : LoopState) (r : SampleRecord)
    (h : (d.tmod 1000000000 = 0 ∧ isInt64 d) ∨ |d| < 16777216000000000)
    (hemit : processEvent ⟨metricName, d⟩ ⟨c, n, some L⟩ t = (s', some r)) :
    r.sampleTime = L + d.tdiv 1000000000 ∧
    s'.lastSampleTime = some r.sampleTime ∧
    (d.tmod 1000000000 = 0 → r.sampleTime * 1000000000 = L * 1000000000 + d) := by
  have hI : intervalSeconds d = d.tdiv 1000000000 := intervalSeconds_eq_tdiv d h
  rw [processEvent_some] at hemit
  dsimp only at hemit
  rw [hI] at hemit
  split_ifs at hemit with hc
  · simp only [Prod.mk.injEq, Option.some.injEq] at hemit
    obtain ⟨hs, hr⟩ := hemit
    subst hs hr
    refine ⟨rfl, rfl, ?_⟩
    intro hw
    have := Int.tmod_add_tdiv d 1000000000
    dsimp only
    omega
  · simp at hemit

/-- Witness for C3: the interval 1500 ms, last sample time 0 and an event at 2 s. -/
theorem sampleTime_is_last_plus_truncated_interval_witness :
    (|(1500000000 : Int)| < 16777216000000000) ∧
    processEvent ⟨"reqcount", 1500000000⟩ ⟨1, 2, some 0⟩ 2
      = (⟨2, 3, some 1⟩, some ⟨1, "reqcount", 1⟩) ∧
    (1 : Int) = 0 + (1500000000 : Int).tdiv 1000000000 :=
  ⟨by decide, by decide!,
    (sampleTime_is_last_plus_truncated_interval "reqcount" 1500000000 1 2 0 2
      ⟨2, 3, some 1⟩ ⟨1, "reqcount", 1⟩ (Or.inr (by decide)) (by decide!)).1⟩

/-- C4: for every input sequence of event timestamps and every sampling interval that is a
positive whole number of seconds, each record written has a sample time exactly one
sampling interval after that of the record before it, so the sample times are strictly
increasing. -/
theorem sampleTimes_step_by_interval (metricName : String) (d : Int) (ts : List Int)
    (hpos : 0 < d) (hwhole : d % 1000000000 = 0) (hmax : d ≤ 9223372036854775807) :
    List.Chain' (fun a b : SampleRecord =>
        b.sampleTime * 1000000000 = a.sampleTime * 1000000000 + d ∧
        a.sampleTime < b.sampleTime)
      (output ⟨metricName, d⟩ ts) := by
  have hI : intervalSeconds d = d / 1000000000 :=
    intervalSeconds_of_nonneg d (le_of_lt hpos) (Or.inl ⟨hwhole, hmax⟩)
  cases ts with
  | nil => simp [output, trace, runTrace]
  | cons t ts =>
    have hch := runTrace_chain ⟨metricName, d⟩ (t :: ts) 0 1 t
    rw [← runTrace_init_cons] at hch
    have hch' := List.Chain'.tail (l := t :: _) hch
    simp only [List.tail_cons] at hch'
    rw [List.chain'_map] at hch'
    unfold output trace
    refine List.Chain'.imp ?_ hch'
    intro a b hab
    rw [hI] at hab
    constructor <;> omega

/-- Witness for C4: the interval 10 s. -/
theorem sampleTimes_step_by_interval_witness :
    (0 : Int) < 10000000000 ∧ (10000000000 : Int) % 1000000000 = 0 ∧
    List.Chain' (fun a b : SampleRecord =>
        b.sampleTime * 1000000000 = a.sampleTime * 1000000000 + 10000000000 ∧
        a.sampleTime < b.sampleTime)
      (output ⟨"reqcount", 10000000000⟩ [0, 5, 9, 11, 15, 25, 100, 101, 102]) :=
  ⟨by decide, by decide,
    sampleTimes_step_by_interval "reqcount" 10000000000 [0, 5, 9, 11, 15, 25, 100, 101, 102]
      (by decide) (by decide) (by decide)⟩

/-- C5, counterexample: in the worked scenario (interval 10 s, events 0, 5, 9, 11, 15, 25
seconds after `T0 = 2012-12-31T23:00:00Z`, Unix time 1356994800) the records written are
not `(T0+10s, reqcount, 3)` and `(T0+20s, reqcount, 4)`. -/
theorem scenario_second_value_is_not_four :
    output ⟨"reqcount", 10000000000⟩
        [1356994800, 1356994805, 1356994809, 1356994811, 1356994815, 1356994825]
      ≠ [⟨1356994810, "reqcount", 3⟩, ⟨1356994820, "reqcount", 4⟩] := by
  decide!

/-- C5, amended: with sampling interval 10 s, metric name `reqcount` and events at 0, 5, 9,
11, 15, 25 seconds after `T0`, the run writes exactly two records: `(T0+10s, reqcount, 3)`
triggered by the event at 11, and `(T0+20s, reqcount, 5)` triggered by the event at 25. -/
theorem scenario_records (T0 : Int) :
    trace ⟨"reqcount", 10000000000⟩ [T0, T0 + 5, T0 + 9, T0 + 11, T0 + 15, T0 + 25]
      = [none, none, none, some ⟨T0 + 10, "reqcount", 3⟩, none,
          some ⟨T0 + 20, "reqcount", 5⟩] ∧
    output ⟨"reqcount", 10000000000⟩ [T0, T0 + 5, T0 + 9, T0 + 11, T0 + 15, T0 + 25]
      = [⟨T0 + 10, "reqcount", 3⟩, ⟨T0 + 20, "reqcount", 5⟩] := by
  have hI : intervalSeconds 10000000000 = 10 := by decide!
  have ht : trace ⟨"reqcount", 10000000000⟩ [T0, T0 + 5, T0 + 9, T0 + 11, T0 + 15, T0 + 25]
      = [none, none, none, some ⟨T0 + 10, "reqcount", 3⟩, none,
          some ⟨T0 + 20, "reqcount", 5⟩] := by
    have skip : ∀ (c n : Nat) (L t : Int), ¬ t - L > 10 →
        processEvent ⟨"reqcount", 10000000000⟩ ⟨c, n, some L⟩ t
          = (⟨c + 1, n + 1, some L⟩, none) := by
      intro c n L t h
      rw [processEvent_some]
      dsimp only
      rw [hI, if_neg h]
    have emit : ∀ (c n : Nat) (L t : Int), t - L > 10 →
        processEvent ⟨"reqcount", 10000000000⟩ ⟨c, n, some L⟩ t
          = (⟨c + 1, n + 1, some (L + 10)⟩, some ⟨L + 10, "reqcount", c⟩) := by
      intro c n L t h
      rw [processEvent_some]
      dsimp only
      rw [hI, if_pos h]
    unfold trace
    rw [runTrace_init_cons]
    simp only [runTrace]
    rw [skip 0 1 T0 T0 (by omega)]
    dsimp only
    rw [skip _ _ T0 (T0 + 5) (by omega)]
    dsimp only
    rw [skip _ _ T0 (T0 + 9) (by omega)]
    dsimp only
    rw [emit _ _ T0 (T0 + 11) (by omega)]
    dsimp only
    rw [skip _ _ (T0 + 10) (T0 + 15) (by omega)]
    dsimp only
    rw [emit _ _ (T0 + 10) (T0 + 25) (by omega)]
    simp only [List.cons.injEq, Option.some.injEq, SampleRecord.mk.injEq, and_true, true_and]
    omega
  refine ⟨ht, ?_⟩
  unfold output
  rw [ht]
  rfl

/-- C6, counterexample: with the sampling interval -5 s, which the option accepts, the
first event of a run emits a record. -/
theorem first_event_emits_for_negative_interval :
    processEvent ⟨"reqcount", -5000000000⟩ initState 1356994800
      = (⟨1, 2, some 1356994795⟩, some ⟨1356994795, "reqcount", 0⟩) := by
  decide!

/-- C6, amended: for every sampling interval greater than -1 s, in particular every
non-negative one, processing the first event of a run sets the last sample time to that
event's timestamp and emits no record. -/
theorem first_event_sets_lastSampleTime (metricName : String) (d : Int) (t : Int)
    (h : -1000000000 < d) :
    processEvent ⟨metricName, d⟩ initState t = (⟨1, 2, some t⟩, none) := by
  have hI : 0 ≤ intervalSeconds d := by
    rcases le_or_lt 0 d with h0 | h0
    · exact intervalSeconds_nonneg d h0
    · rw [intervalSeconds_eq_tdiv d (Or.inr (by rw [abs_of_neg h0]; omega))]
      have e : d.tdiv 1000000000 = -((-d).tdiv 1000000000) := by
        rw [Int.neg_tdiv, neg_neg]
      rw [e, Int.tdiv_eq_ediv (by omega) (by decide)]
      omega
  unfold initState
  rw [processEvent_init, processEvent_some]
  dsimp only
  rw [if_neg (by omega)]

/-- Witness for C6: the default interval of 10 s. -/
theorem first_event_sets_lastSampleTime_witness :
    (-1000000000 : Int) < 10000000000 ∧
    processEvent ⟨"reqcount", 10000000000⟩ initState 1356994800
      = (⟨1, 2, some 1356994800⟩, none) :=
  ⟨by decide, first_event_sets_lastSampleTime "reqcount" 10000000000 1356994800 (by decide)⟩

/-- C7: for every sampling interval of a whole number of seconds and every event, however
large the gap, processing the event writes at most one record, and afterwards the last
sample time is either unchanged, with no record, or exactly one sampling interval later
than before, with one record carrying that sample time.  Here "before" is the last sample
time `L` of the state, and for the first event of a run (no last sample time yet) the
event's own timestamp, which the loop body assigns first. -/
theorem single_step_cap (metricName : String) (d : Int) (s : LoopState) (t : Int)
    (hwhole : d.tmod 1000000000 = 0) (hrange : isInt64 d) :
    (processEvent ⟨metricName, d⟩ s t).2.toList.length ≤ 1 ∧
    (((processEvent ⟨metricName, d⟩ s t).1.lastSampleTime
          = some (s.lastSampleTime.getD t) ∧
        (processEvent ⟨metricName, d⟩ s t).2 = none) ∨
      (∃ L' : Int, L' * 1000000000 = (s.lastSampleTime.getD t) * 1000000000 + d ∧
        (processEvent ⟨metricName, d⟩ s t).1.lastSampleTime = some L' ∧
        (processEvent ⟨metricName, d⟩ s t).2 = some ⟨L', metricName, s.reqCount⟩)) := by
  have hI : intervalSeconds d = d.tdiv 1000000000 :=
    intervalSeconds_eq_tdiv d (Or.inl ⟨hwhole, hrange⟩)
  have hd := Int.tmod_add_tdiv d 1000000000
  obtain ⟨c, n, last⟩ := s
  have hs : processEvent ⟨metricName, d⟩ ⟨c, n, last⟩ t
      = processEvent ⟨metricName, d⟩ ⟨c, n, some (last.getD t)⟩ t := by
    cases last <;> rfl
  rw [hs, processEvent_some]
  dsimp only
  rw [hI]
  split_ifs with hc
  · refine ⟨by simp, Or.inr ⟨last.getD t + d.tdiv 1000000000, by omega, rfl, rfl⟩⟩
  · exact ⟨by simp, Or.inl ⟨rfl, rfl⟩⟩

/-- Witness for C7: interval 10 s and an event a million seconds after the last sample. -/
theorem single_step_cap_witness :
    (10000000000 : Int).tmod 1000000000 = 0 ∧ isInt64 10000000000 ∧
    (processEvent ⟨"reqcount", 10000000000⟩ ⟨7, 8, some 0⟩ 1000000).2.toList.length ≤ 1 :=
  ⟨by decide, by decide,
    (single_step_cap "reqcount" 10000000000 ⟨7, 8, some 0⟩ 1000000 (by decide) (by decide)).1⟩

/-- C8: for every non-empty input and every sampling interval that is a non-negative whole
number of seconds, after processing any front part of the input that contains the first
event, the last sample time is the first event's timestamp plus `k` times the sampling
interval, where `k` is the number of records written so far; and the `k`-th record written
(`k ≥ 1`) has sample time the first event's timestamp plus `k` times the interval. -/
theorem first_event_anchors_boundaries (metricName : String) (d : Int) (first : Int)
    (rest : List Int) (n : Nat)
    (h0 : 0 ≤ d) (hwhole : d % 1000000000 = 0) (hmax : d ≤ 9223372036854775807) :
    (∃ last : Int,
      (finalState ⟨metricName, d⟩ (first :: rest.take n)).lastSampleTime = some last ∧
      last * 1000000000 = first * 1000000000
        + ((output ⟨metricName, d⟩ (first :: rest.take n)).length : Int) * d) ∧
    (∀ (j : Nat) (r : SampleRecord),
      (output ⟨metricName, d⟩ (first :: rest.take n))[j]? = some r →
        r.sampleTime * 1000000000 = first * 1000000000 + ((j : Int) + 1) * d) := by
  have hI : intervalSeconds d = d / 1000000000 :=
    intervalSeconds_of_nonneg d h0 (Or.inl ⟨hwhole, hmax⟩)
  have hd : d / 1000000000 * 1000000000 = d := by omega
  obtain ⟨k1, k2⟩ := runTrace_sampleTimes ⟨metricName, d⟩ (first :: rest.take n) 0 1 first
  rw [← runTrace_init_cons] at k1 k2
  dsimp only at k1 k2
  rw [hI] at k1 k2
  unfold finalState output trace
  constructor
  · refine ⟨_, k2, ?_⟩
    rw [add_mul, mul_assoc, hd]
  · intro j r hj
    rw [k1 j r hj, add_mul, mul_assoc, hd]

/-- Witness for C8: interval 10 s, the events of the worked scenario, the first four. -/
theorem first_event_anchors_boundaries_witness :
    (0 : Int) ≤ 10000000000 ∧ (10000000000 : Int) % 1000000000 = 0 ∧
    (∀ (j : Nat) (r : SampleRecord),
      (output ⟨"reqcount", 10000000000⟩ (100 :: [105, 109, 111, 115, 125].take 3))[j]?
          = some r →
        r.sampleTime * 1000000000 = 100 * 1000000000 + ((j : Int) + 1) * 10000000000) :=
  ⟨by decide, by decide,
    (first_event_anchors_boundaries "reqcount" 10000000000 100 [105, 109, 111, 115, 125] 3
      (by decide) (by decide) (by decide)).2⟩

/-- C9: a line without `[`, or without `]`, or whose first `[` is not strictly before its
first `]`, makes `extractRequestTime` return the malformed line error, whatever the
timestamp parser would do; a line whose first `[` is strictly before its first `]` never
gives a malformed line error. -/
theorem extractRequestTime_bracket_errors {ε τ : Type} (timeParse : GoString → Except ε τ)
    (line : GoString) :
    ((openBracket ∉ line ∨ closeBracket ∉ line ∨
        ¬ firstPos line openBracket < firstPos line closeBracket) →
      extractRequestTime timeParse line = .error (.malformedLine line)) ∧
    (firstOpenBeforeClose line →
      ∀ l, extractRequestTime timeParse line ≠ .error (.malformedLine l)) := by
  constructor
  · intro h
    by_cases ho : openBracket ∈ line
    · by_cases hc : closeBracket ∈ line
      · have hlt : ¬ firstPos line openBracket < firstPos line closeBracket := by
          rcases h with h | h | h
          · exact absurd ho h
          · exact absurd hc h
          · exact h
        have hgt : (firstPos line openBracket : Int) > (firstPos line closeBracket : Int) := by
          have hne := firstPos_ne line ho hc
          omega
        simp only [extractRequestTime, stringsIndex_of_mem ho, stringsIndex_of_mem hc]
        rw [if_neg (by omega), if_pos hgt]
      · simp [extractRequestTime, stringsIndex_of_not_mem hc]
    · simp [extractRequestTime, stringsIndex_of_not_mem ho]
  · rintro ⟨ho, hc, hlt⟩ l
    simp only [extractRequestTime, stringsIndex_of_mem ho, stringsIndex_of_mem hc]
    rw [if_neg (by omega), if_neg (by omega)]
    cases timeParse _ <;> simp [Except.mapError]

/-- C10: on lines whose first `[` precedes the first `]`, `extractRequestTime` hands
exactly the text strictly between the two delimiters to the timestamp parser and returns
the parser's outcome; hence two such lines with the same text between the delimiters give
the same outcome, whatever precedes the `[` or follows the `]`. -/
theorem extractRequestTime_depends_on_bracket_text {ε τ : Type}
    (timeParse : GoString → Except ε τ) (line₁ line₂ : GoString)
    (h₁ : firstOpenBeforeClose line₁) (h₂ : firstOpenBeforeClose line₂)
    (heq : textBetween line₁ = textBetween line₂) :
    goSlice line₁ (stringsIndex line₁ openBracket + 1) (stringsIndex line₁ closeBracket)
      = textBetween line₁ ∧
    extractRequestTime timeParse line₁
      = (timeParse (textBetween line₁)).mapError .parseError ∧
    extractRequestTime timeParse line₁ = extractRequestTime timeParse line₂ := by
  have key : ∀ line : GoString, firstOpenBeforeClose line →
      goSlice line (stringsIndex line openBracket + 1) (stringsIndex line closeBracket)
        = textBetween line ∧
      extractRequestTime timeParse line
        = (timeParse (textBetween line)).mapError .parseError := by
    rintro line ⟨ho, hc, hlt⟩
    have hs : goSlice line (stringsIndex line openBracket + 1)
        (stringsIndex line closeBracket) = textBetween line := by
      rw [stringsIndex_of_mem ho, stringsIndex_of_mem hc]
      have e : ((firstPos line openBracket : Int) + 1).toNat = firstPos line openBracket + 1 := by
        omega
      simp only [goSlice, Int.toNat_ofNat, e]
      exact slice_eq_textBetween line hlt
    refine ⟨hs, ?_⟩
    unfold extractRequestTime
    dsimp only
    rw [hs]
    rw [stringsIndex_of_mem ho, stringsIndex_of_mem hc]
    rw [if_neg (by omega), if_neg (by omega)]
  obtain ⟨k1, k2⟩ := key line₁ h₁
  obtain ⟨_, k4⟩ := key line₂ h₂
  exact ⟨k1, k2, by rw [k2, k4, heq]⟩

/-- Witness for C10: the log line of the source comment and a bare bracketed timestamp. -/
theorem extractRequestTime_depends_on_bracket_text_witness :
    firstOpenBeforeClose
        (goString "127.0.0.1 - - [10/Oct/2000:13:55:36 -0700] \"GET / HTTP/1.0\" 200 232") ∧
    firstOpenBeforeClose (goString "[10/Oct/2000:13:55:36 -0700] ]x[") ∧
    extractRequestTime (fun s => if s.length = 26 then Except.ok s.length else Except.error s)
        (goString "127.0.0.1 - - [10/Oct/2000:13:55:36 -0700] \"GET / HTTP/1.0\" 200 232")
      = extractRequestTime (fun s => if s.length = 26 then Except.ok s.length else Except.error s)
        (goString "[10/Oct/2000:13:55:36 -0700] ]x[") :=
  ⟨by decide, by decide,
    (extractRequestTime_depends_on_bracket_text _ _ _ (by decide) (by decide) (by decide)).2.2⟩

/-! ## Claims on the accumulator, continued -/

theorem runTrace_length (cfg : Config) (ts : List Int) :
    ∀ s : LoopState, (runTrace cfg s ts).2.length = ts.length := by
  induction ts with
  | nil => intro s; rfl
  | cons t ts ih => intro s; simp [runTrace, ih]

/-- From a state whose last sample time is `L`, every record written has a sample time
strictly before the timestamp of the event that triggered it. -/
theorem runTrace_sampleTime_lt (cfg : Config) (ts : List Int) :
    ∀ (c n : Nat) (L : Int) (i : Nat) (r : SampleRecord),
      (runTrace cfg ⟨c, n, some L⟩ ts).2[i]? = some (some r) →
        ∃ t, ts[i]? = some t ∧ r.sampleTime < t := by
  induction ts with
  | nil => intro c n L i r h; simp [runTrace] at h
  | cons t ts ih =>
    intro c n L i r h
    simp only [runTrace] at h
    rw [processEvent_some] at h
    cases i with
    | zero =>
      simp only [List.getElem?_cons_zero, Option.some.injEq] at h
      split_ifs at h with hc
      simp only [Option.some.injEq] at h
      refine ⟨t, by simp, ?_⟩
      rw [← h]
      dsimp only
      omega
    | succ j =>
      simp only [List.getElem?_cons_succ] at h ⊢
      split_ifs at h with hc
      · exact ih _ _ _ j r h
      · exact ih _ _ _ j r h

/-- On non-decreasing timestamps that start at or after the last sample time, the last
sample time after each event is at or before that event's timestamp. -/
theorem runTrace_last_le (cfg : Config) (ts : List Int) :
    ∀ (c n : Nat) (L t0 : Int) (k : Nat) (t : Int), L ≤ t0 → List.Chain (· ≤ ·) t0 ts →
      (t0 :: ts)[k]? = some t →
      ∃ L' : Int,
        (runTrace cfg ⟨c, n, some L⟩ ((t0 :: ts).take (k + 1))).1.lastSampleTime = some L' ∧
        L' ≤ t := by
  induction ts with
  | nil =>
    intro c n L t0 k t h0 _ hk
    cases k with
    | zero =>
      simp only [List.getElem?_cons_zero, Option.some.injEq] at hk
      subst hk
      simp only [List.take_succ_cons, List.take_zero, runTrace]
      rw [processEvent_some]
      split_ifs with hc
      · exact ⟨_, rfl, by omega⟩
      · exact ⟨_, rfl, h0⟩
    | succ j => simp at hk
  | cons t1 ts ih =>
    intro c n L t0 k t h0 hch hk
    rw [List.chain_cons] at hch
    obtain ⟨h01, hch'⟩ := hch
    cases k with
    | zero =>
      simp only [List.getElem?_cons_zero, Option.some.injEq] at hk
      subst hk
      simp only [List.take_succ_cons, List.take_zero, runTrace]
      rw [processEvent_some]
      split_ifs with hc
      · exact ⟨_, rfl, by omega⟩
      · exact ⟨_, rfl, h0⟩
    | succ j =>
      rw [List.getElem?_cons_succ] at hk
      rw [List.take_succ_cons]
      have step : ∀ l : List Int, runTrace cfg ⟨c, n, some L⟩ (t0 :: l)
          = ((runTrace cfg (processEvent cfg ⟨c, n, some L⟩ t0).1 l).1,
              (processEvent cfg ⟨c, n, some L⟩ t0).2
                :: (runTrace cfg (processEvent cfg ⟨c, n, some L⟩ t0).1 l).2) :=
        fun _ => rfl
      rw [step, processEvent_some]
      dsimp only
      split_ifs with hc
      · exact ih _ _ _ t1 j t (by omega) hch' hk
      · exact ih _ _ _ t1 j t (by omega) hch' hk

/-- C13: nothing is emitted at end of stream: for every input of `n` events and every
sampling interval each emitted value is at most `n - 1`, so the total count `n` is never
reported, and an empty input produces no record. -/
theorem trailing_count_is_dropped (cfg : Config) (ts : List Int) :
    (∀ r ∈ output cfg ts, r.value + 1 ≤ ts.length) ∧ output cfg [] = [] := by
  refine ⟨fun r hr => ?_, rfl⟩
  unfold output at hr
  rw [List.reduceOption_mem_iff] at hr
  obtain ⟨i, hi, hget⟩ := List.getElem_of_mem hr
  have hlen : (trace cfg ts).length = ts.length := runTrace_length cfg ts initState
  have h := runTrace_value cfg ts initState i r (by
    have : (trace cfg ts)[i]? = some (some r) := by
      rw [List.getElem?_eq_getElem hi, hget]
    exact this)
  simp only [initState, zero_add] at h
  omega

/-- C14, failing input: interval 10 s and events at 0, 100 and 101 s.  The second record
has sample time 20 s and value 2, while one event only has a timestamp at or before
20 s. -/
theorem value_counts_events_after_sample_time :
    output ⟨"reqcount", 10000000000⟩ [0, 100, 101]
      = [⟨10, "reqcount", 1⟩, ⟨20, "reqcount", 2⟩] ∧
    ([0, 100, 101].filter (fun t : Int => t ≤ 20)).length = 1 := by
  decide!

/-- C15, failing input: interval 10 s and events at 0 and 100 s.  The sampling point
0 + 2 * 10 s is before the last timestamp and no record has that sample time; the only
record is the one at 10 s. -/
theorem sampling_point_skipped_after_gap :
    output ⟨"reqcount", 10000000000⟩ [0, 100] = [⟨10, "reqcount", 1⟩] ∧
    (0 : Int) + 2 * 10 < 100 ∧
    ∀ r ∈ output ⟨"reqcount", 10000000000⟩ [0, 100], r.sampleTime ≠ 0 + 2 * 10 := by
  decide!

/-- C18: for every input whose timestamps are non-decreasing and every sampling interval,
the non-negative ones in particular, after processing each event the last sample time is
at or before that event's timestamp, and every record written has a sample time strictly
earlier than the timestamp of the event that triggered it. -/
theorem sample_point_not_ahead_of_data (metricName : String) (d : Int) (ts : List Int)
    (hsorted : ts.Chain' (· ≤ ·)) :
    (∀ (k : Nat) (t : Int), ts[k]? = some t →
      ∃ L : Int, (finalState ⟨metricName, d⟩ (ts.take (k + 1))).lastSampleTime = some L ∧
        L ≤ t) ∧
    (∀ (i : Nat) (r : SampleRecord), (trace ⟨metricName, d⟩ ts)[i]? = some (some r) →
      ∃ t, ts[i]? = some t ∧ r.sampleTime < t) := by
  constructor
  · intro k t hk
    cases ts with
    | nil => simp at hk
    | cons t0 rest =>
      obtain ⟨L, hL, hle⟩ := runTrace_last_le ⟨metricName, d⟩ rest 0 1 t0 t0 k t
        le_rfl hsorted hk
      refine ⟨L, ?_, hle⟩
      unfold finalState
      rw [List.take_succ_cons, runTrace_init_cons, ← List.take_succ_cons]
      exact hL
  · intro i r h
    cases ts with
    | nil => simp [trace, runTrace] at h
    | cons t0 rest =>
      unfold trace at h
      rw [runTrace_init_cons] at h
      exact runTrace_sampleTime_lt ⟨metricName, d⟩ (t0 :: rest) 0 1 t0 i r h

/-- Witness for C18: interval 10 s and the events of the worked scenario. -/
theorem sample_point_not_ahead_of_data_witness :
    [0, 5, 9, 11, 15, 25].Chain' (fun a b : Int => a ≤ b) ∧
    (∀ (i : Nat) (r : SampleRecord),
      (trace ⟨"reqcount", 10000000000⟩ [0, 5, 9, 11, 15, 25])[i]? = some (some r) →
        ∃ t, [0, 5, 9, 11, 15, 25][i]? = some t ∧ r.sampleTime < t) :=
  ⟨by simp,
    (sample_point_not_ahead_of_data "reqcount" 10000000000 [0, 5, 9, 11, 15, 25]
      (by simp)).2⟩

/-! ## Lemmas on `strings.TrimSpace` -/

theorem startsWith_eq_append {s e : GoString} (h : startsWith s e = true) :
    s = e ++ s.drop e.length := by
  induction e generalizing s with
  | nil => simp
  | cons b e ih =>
    cases s with
    | nil => simp [startsWith] at h
    | cons c s' =>
      simp only [startsWith, Bool.and_eq_true, decide_eq_true_eq] at h
      obtain ⟨h1, h2⟩ := h
      subst h1
      simp only [List.length_cons, List.drop_succ_cons, List.cons_append, List.cons.injEq,
        true_and]
      exact ih h2

/-- The bytes removed from the front by `stripFront` all come from the sequences `encs`. -/
theorem stripFront_spec (encs : List GoString) (fuel : Nat) :
    ∀ s : GoString, ∃ pre : GoString, s = pre ++ stripFront encs fuel s ∧
      ∀ b ∈ pre, ∃ e ∈ encs, b ∈ e := by
  induction fuel with
  | zero => intro s; exact ⟨[], rfl, by simp⟩
  | succ fuel ih =>
    intro s
    unfold stripFront
    cases hf : encs.find? (startsWith s) with
    | none => exact ⟨[], rfl, by simp⟩
    | some e =>
      dsimp only
      split_ifs with he
      · exact ⟨[], rfl, by simp⟩
      · have hmem : e ∈ encs := List.mem_of_find?_eq_some hf
        have hst : startsWith s e = true := List.find?_some hf
        obtain ⟨pre, hpre, hb⟩ := ih (s.drop e.length)
        refine ⟨e ++ pre, ?_, ?_⟩
        · rw [List.append_assoc, ← hpre]
          exact startsWith_eq_append hst
        · intro b hbm
          rcases List.mem_append.mp hbm with h | h
          · exact ⟨e, hmem, h⟩
          · exact hb b h

theorem spaceEncodings_no_bracket :
    ∀ e ∈ spaceEncodings, openBracket ∉ e ∧ closeBracket ∉ e := by
  decide

/-- Trimming removes a front part and a back part that hold no bracket. -/
theorem stringsTrimSpace_spec (s : GoString) :
    ∃ pre suf : GoString, s = pre ++ stringsTrimSpace s ++ suf ∧
      openBracket ∉ pre ∧ closeBracket ∉ pre ∧ openBracket ∉ suf ∧ closeBracket ∉ suf := by
  obtain ⟨pre, hpre, hb1⟩ := stripFront_spec spaceEncodings s.length s
  obtain ⟨suf, hsuf, hb2⟩ := stripFront_spec (spaceEncodings.map List.reverse)
    (trimLeftSpace s).length (trimLeftSpace s).reverse
  have hsuf' : trimLeftSpace s = trimRightSpace (trimLeftSpace s) ++ suf.reverse := by
    have := congrArg List.reverse hsuf
    rw [List.reverse_reverse, List.reverse_append] at this
    exact this
  refine ⟨pre, suf.reverse, ?_, ?_, ?_, ?_, ?_⟩
  · unfold stringsTrimSpace
    rw [List.append_assoc, ← hsuf']
    exact hpre
  · intro h
    obtain ⟨e, he, hbe⟩ := hb1 _ h
    exact (spaceEncodings_no_bracket e he).1 hbe
  · intro h
    obtain ⟨e, he, hbe⟩ := hb1 _ h
    exact (spaceEncodings_no_bracket e he).2 hbe
  · intro h
    obtain ⟨e, he, hbe⟩ := hb2 _ (List.mem_reverse.mp h)
    obtain ⟨e', he', rfl⟩ := List.mem_map.mp he
    exact (spaceEncodings_no_bracket e' he').1 (List.mem_reverse.mp hbe)
  · intro h
    obtain ⟨e, he, hbe⟩ := hb2 _ (List.mem_reverse.mp h)
    obtain ⟨e', he', rfl⟩ := List.mem_map.mp he
    exact (spaceEncodings_no_bracket e' he').2 (List.mem_reverse.mp hbe)

/-! ## Extraction and trimming -/

/-- On a line whose first `[` precedes its first `]`, the result is the outcome of the
timestamp parser on the text between the two. -/
theorem extractRequestTime_of_bracketed {ε τ : Type} (timeParse : GoString → Except ε τ)
    (line : GoString) (h : firstOpenBeforeClose line) :
    extractRequestTime timeParse line
      = (timeParse (textBetween line)).mapError .parseError := by
  obtain ⟨ho, hc, hlt⟩ := h
  have hs : goSlice line (stringsIndex line openBracket + 1)
      (stringsIndex line closeBracket) = textBetween line := by
    rw [stringsIndex_of_mem ho, stringsIndex_of_mem hc]
    have e : ((firstPos line openBracket : Int) + 1).toNat = firstPos line openBracket + 1 := by
      omega
    simp only [goSlice, Int.toNat_ofNat, e]
    exact slice_eq_textBetween line hlt
  unfold extractRequestTime
  dsimp only
  rw [hs, stringsIndex_of_mem ho, stringsIndex_of_mem hc]
  rw [if_neg (by omega), if_neg (by omega)]

/-- On any other line the result is the malformed line error. -/
theorem extractRequestTime_of_not_bracketed {ε τ : Type}
    (timeParse : GoString → Except ε τ) (line : GoString) (h : ¬ firstOpenBeforeClose line) :
    extractRequestTime timeParse line = .error (.malformedLine line) := by
  by_cases ho : openBracket ∈ line
  · by_cases hc : closeBracket ∈ line
    · have hlt : ¬ firstPos line openBracket < firstPos line closeBracket :=
        fun hlt => h ⟨ho, hc, hlt⟩
      have hne := firstPos_ne line ho hc
      simp only [extractRequestTime, stringsIndex_of_mem ho, stringsIndex_of_mem hc]
      rw [if_neg (by omega), if_pos (by omega)]
    · simp [extractRequestTime, stringsIndex_of_not_mem hc]
  · simp [extractRequestTime, stringsIndex_of_not_mem ho]

theorem firstPos_append_of_not_mem {c : Byte} (pre s : GoString) (h : c ∉ pre) :
    firstPos (pre ++ s) c = pre.length + firstPos s c := by
  induction pre with
  | nil => simp
  | cons b pre ih =>
    have hb : b ≠ c := fun e => h (by simp [e])
    have hp : c ∉ pre := fun e => h (List.mem_cons_of_mem _ e)
    rw [List.cons_append, firstPos_cons_ne hb, ih hp]
    simp only [List.length_cons]
    omega

theorem firstPos_append_of_mem {c : Byte} (s suf : GoString) (h : c ∈ s) :
    firstPos (s ++ suf) c = firstPos s c := by
  induction s with
  | nil => simp at h
  | cons b s ih =>
    by_cases hb : b = c
    · subst hb
      rw [List.cons_append, firstPos_cons_self, firstPos_cons_self]
    · have hm : c ∈ s := by
        rcases List.mem_cons.mp h with e | e
        · exact absurd e.symm hb
        · exact e
      rw [List.cons_append, firstPos_cons_ne hb, firstPos_cons_ne hb, ih hm]

theorem textBetween_append_left (pre s : GoString) (h : openBracket ∉ pre) :
    textBetween (pre ++ s) = textBetween s := by
  induction pre with
  | nil => rfl
  | cons b pre ih =>
    have hb : b ≠ openBracket := fun e => h (by simp [e])
    have hp : openBracket ∉ pre := fun e => h (List.mem_cons_of_mem _ e)
    have : textBetween (b :: (pre ++ s)) = textBetween (pre ++ s) := by
      simp [textBetween, List.dropWhile, hb]
    rw [List.cons_append, this, ih hp]

theorem takeWhile_append_of_mem (c : Byte) (s suf : GoString) (h : c ∈ s) :
    (s ++ suf).takeWhile (fun b => b ≠ c) = s.takeWhile (fun b => b ≠ c) := by
  induction s with
  | nil => simp at h
  | cons b s ih =>
    by_cases hb : b = c
    · simp [List.takeWhile, hb]
    · have hm : c ∈ s := by
        rcases List.mem_cons.mp h with e | e
        · exact absurd e.symm hb
        · exact e
      simp only [List.cons_append, List.takeWhile, hb, ne_eq, not_false_eq_true, decide_True,
        List.cons.injEq, true_and]
      exact ih hm

theorem textBetween_append_right (s suf : GoString) (h : firstOpenBeforeClose s) :
    textBetween (s ++ suf) = textBetween s := by
  obtain ⟨ho, hc, hlt⟩ := h
  induction s with
  | nil => simp at ho
  | cons b s ih =>
    by_cases hb : b = openBracket
    · have hbc : b ≠ closeBracket := by rw [hb]; decide
      have hm : closeBracket ∈ s := by
        rcases List.mem_cons.mp hc with e | e
        · exact absurd e.symm hbc
        · exact e
      have e1 : textBetween (b :: s ++ suf) = (s ++ suf).takeWhile (fun x => x ≠ closeBracket) := by
        simp [textBetween, List.dropWhile, hb]
      have e2 : textBetween (b :: s) = s.takeWhile (fun x => x ≠ closeBracket) := by
        simp [textBetween, List.dropWhile, hb]
      rw [e1, e2]
      exact takeWhile_append_of_mem closeBracket s suf hm
    · have hbc : b ≠ closeBracket := by
        intro e
        rw [e, firstPos_cons_self] at hlt
        omega
      have hmo : openBracket ∈ s := by
        rcases List.mem_cons.mp ho with e | e
        · exact absurd e.symm hb
        · exact e
      have hmc : closeBracket ∈ s := by
        rcases List.mem_cons.mp hc with e | e
        · exact absurd e.symm hbc
        · exact e
      rw [firstPos_cons_ne hb, firstPos_cons_ne hbc] at hlt
      have e1 : textBetween (b :: s ++ suf) = textBetween (s ++ suf) := by
        simp [textBetween, List.dropWhile, hb]
      have e2 : textBetween (b :: s) = textBetween s := by
        simp [textBetween, List.dropWhile, hb]
      rw [e1, e2]
      exact ih hmo hmc (by omega)

/-- Bytes other than brackets around a line change neither whether its first `[` precedes
its first `]` nor the text between them. -/
theorem bracketed_of_padding (pre s suf : GoString)
    (h1 : openBracket ∉ pre) (h2 : closeBracket ∉ pre)
    (h3 : openBracket ∉ suf) (h4 : closeBracket ∉ suf) :
    (firstOpenBeforeClose (pre ++ s ++ suf) ↔ firstOpenBeforeClose s) ∧
    (firstOpenBeforeClose s → textBetween (pre ++ s ++ suf) = textBetween s) := by
  have hmo : openBracket ∈ pre ++ s ++ suf ↔ openBracket ∈ s := by
    simp [List.mem_append, h1, h3]
  have hmc : closeBracket ∈ pre ++ s ++ suf ↔ closeBracket ∈ s := by
    simp [List.mem_append, h2, h4]
  have hpos : ∀ c : Byte, c ∉ pre → c ∈ s →
      firstPos (pre ++ s ++ suf) c = pre.length + firstPos s c := by
    intro c hp hs
    rw [List.append_assoc, firstPos_append_of_not_mem pre _ hp, firstPos_append_of_mem s suf hs]
  constructor
  · constructor
    · rintro ⟨ho, hc, hlt⟩
      have ho' := hmo.mp ho
      have hc' := hmc.mp hc
      rw [hpos _ h1 ho', hpos _ h2 hc'] at hlt
      exact ⟨ho', hc', by omega⟩
    · rintro ⟨ho, hc, hlt⟩
      refine ⟨hmo.mpr ho, hmc.mpr hc, ?_⟩
      rw [hpos _ h1 ho, hpos _ h2 hc]
      omega
  · intro h
    rw [List.append_assoc, textBetween_append_left pre _ h1, textBetween_append_right s suf h]

/-- C19: for every line, `extractRequestTime` on the line trimmed by `strings.TrimSpace`
returns a timestamp exactly when it does on the untrimmed line, and then the same
timestamp. -/
theorem trimming_does_not_affect_extraction {ε τ : Type} (timeParse : GoString → Except ε τ)
    (line : GoString) (t : τ) :
    extractRequestTime timeParse (stringsTrimSpace line) = .ok t ↔
      extractRequestTime timeParse line = .ok t := by
  obtain ⟨pre, suf, hs, h1, h2, h3, h4⟩ := stringsTrimSpace_spec line
  obtain ⟨hiff, htext⟩ := bracketed_of_padding pre (stringsTrimSpace line) suf h1 h2 h3 h4
  rw [← hs] at hiff htext
  by_cases hb : firstOpenBeforeClose (stringsTrimSpace line)
  · rw [extractRequestTime_of_bracketed timeParse _ hb,
      extractRequestTime_of_bracketed timeParse _ (hiff.mpr hb), htext hb]
  · rw [extractRequestTime_of_not_bracketed timeParse _ hb,
      extractRequestTime_of_not_bracketed timeParse _ (fun h => hb (hiff.mp h))]
    simp

/-! ## Claims on `time.Parse` -/

/-- C17, counterexample: a one digit hour, a fractional second, a month in lower case and
several spaces before the zone all deviate from the fixed pattern, and the timestamp is
extracted all the same. -/
theorem lenient_timestamps_are_accepted :
    extractRequestTime timeParse (goString "[10/Oct/2000:3:55:36 -0700]")
      = .ok ⟨971175336, 0⟩ ∧
    extractRequestTime timeParse (goString "[10/Oct/2000:13:55:36.5 -0700]")
      = .ok ⟨971211336, 500000000⟩ ∧
    extractRequestTime timeParse (goString "[10/oct/2000:13:55:36   -0700]")
      = .ok ⟨971211336, 0⟩ := by
  decide

theorem isDigit_digitByte (k : Nat) : isDigit (digitByte k) = true := by
  simp only [isDigit, digitByte, Bool.and_eq_true, decide_eq_true_eq]
  omega

theorem digitVal_digitByte (k : Nat) : digitVal (digitByte k) = k % 10 := by
  simp [digitVal, digitByte]

theorem getnum_twoDigits (n : Nat) (hn : n < 100) (rest : GoString) (fixed : Bool) :
    getnum (twoDigits n ++ rest) fixed = some (n, rest) := by
  simp only [twoDigits, List.cons_append, List.nil_append, getnum, isDigit_digitByte,
    if_true, digitVal_digitByte, Option.some.injEq, Prod.mk.injEq, and_true]
  omega

theorem longYear_fourDigits (n : Nat) (hn : n < 10000) (rest : GoString) :
    longYear (fourDigits n ++ rest) = some (n, rest) := by
  simp only [fourDigits, List.cons_append, List.nil_append, longYear, isDigit_digitByte,
    Bool.and_self, if_true, digitVal_digitByte, Option.some.injEq, Prod.mk.injEq, and_true]
  omega

theorem lookupMonth_name (month : Nat) (hm : month < 12) (rest : GoString) :
    lookupMonth (shortMonthNames.getD month [] ++ rest) = some (month, rest) := by
  interval_cases month <;> rfl

theorem numTZ_digits (west : Bool) (zh zm : Nat) (hzh : zh < 24) (hzm : zm < 60) :
    numTZ ((if west then 45 else 43) :: (twoDigits zh ++ twoDigits zm))
      = .ok (zoneSeconds west zh zm, []) := by
  have h1 : getnum [digitByte (zh / 10), digitByte zh] true = some (zh, []) := by
    simpa [twoDigits] using getnum_twoDigits zh (by omega) [] true
  have h2 : getnum [digitByte (zm / 10), digitByte zm] true = some (zm, []) := by
    simpa [twoDigits] using getnum_twoDigits zm (by omega) [] true
  simp only [twoDigits, List.cons_append, List.nil_append, numTZ, h1, h2]
  rw [if_neg (by omega)]
  cases west
  · simp [zoneSeconds]
    ring
  · simp [zoneSeconds]
    ring

/-- Parsing the text `dd/Mon/yyyy:HH:MM:SS ±hhmm` of valid fields gives the civil time of
the fields minus the zone offset. -/
theorem timeParse_wellFormed (day month year hour min sec : Nat) (west : Bool)
    (zh zm : Nat) (hd1 : 1 ≤ day) (hd2 : day ≤ daysIn month year) (hm : month < 12)
    (hy : year < 10000) (hH : hour < 24) (hM : min < 60) (hS : sec < 60)
    (hzh : zh < 24) (hzm : zm < 60) :
    timeParse (wellFormedTimestamp day month year hour min sec west zh zm)
      = .ok ⟨dateUnix year month day hour min sec - zoneSeconds west zh zm, 0⟩ := by
  have hday : day < 100 := by
    have : daysIn month year ≤ 31 := by
      unfold daysIn
      split
      · split <;> omega
      · interval_cases month <;> simp
    omega
  have hsign : ∀ (rest : GoString),
      fracSecond (32 :: (if west then 45 else 43) :: rest)
        = (0, 32 :: (if west then 45 else 43) :: rest) := by
    intro rest
    simp [fracSecond]
  have hskip : ∀ (rest : GoString),
      skipSpace (32 :: (if west then 45 else 43) :: rest)
        = some ((if west then 45 else 43) :: rest) := by
    intro rest
    cases west <;> simp [skipSpace, List.dropWhile]
  unfold timeParse wellFormedTimestamp
  simp only [getnum_twoDigits day hday, getnum_twoDigits hour (by omega),
    getnum_twoDigits min (by omega), getnum_twoDigits sec (by omega),
    lookupMonth_name month hm, longYear_fourDigits year hy, skipByte, orBad,
    hsign, hskip, numTZ_digits west zh zm hzh hzm, if_true, bind, Except.bind]
  rw [if_neg (by omega), if_neg (by omega), if_neg (by omega)]
  simp only [ne_eq, not_true_eq_false, if_false]
  rw [if_neg (by omega)]

/-- C11: for every line whose first `[` precedes its first `]` and whose text between them
is a well-formed timestamp `dd/Mon/yyyy:HH:MM:SS ±hhmm`, `extractRequestTime` returns the
instant obtained by reading the date and time fields as civil time at the given zone
offset: the Unix time of the civil fields in UTC minus the offset. -/
theorem zone_offset_is_honoured (line : GoString) (day month year hour min sec : Nat)
    (west : Bool) (zh zm : Nat)
    (hline : firstOpenBeforeClose line)
    (htext : textBetween line = wellFormedTimestamp day month year hour min sec west zh zm)
    (hd1 : 1 ≤ day) (hd2 : day ≤ daysIn month year) (hm : month < 12)
    (hy : year < 10000) (hH : hour < 24) (hM : min < 60) (hS : sec < 60)
    (hzh : zh < 24) (hzm : zm < 60) :
    extractRequestTime timeParse line
      = .ok ⟨dateUnix year month day hour min sec - zoneSeconds west zh zm, 0⟩ := by
  rw [extractRequestTime_of_bracketed timeParse line hline, htext,
    timeParse_wellFormed day month year hour min sec west zh zm hd1 hd2 hm hy hH hM hS hzh hzm]
  rfl

/-- Witness for C11: the log line of the source comment, `10/Oct/2000:13:55:36 -0700`,
gives 2000-10-10T20:55:36Z, Unix time 971211336. -/
theorem zone_offset_is_honoured_witness :
    firstOpenBeforeClose
      (goString "127.0.0.1 - - [10/Oct/2000:13:55:36 -0700] \"GET / HTTP/1.0\" 200 232") ∧
    textBetween
        (goString "127.0.0.1 - - [10/Oct/2000:13:55:36 -0700] \"GET / HTTP/1.0\" 200 232")
      = wellFormedTimestamp 10 9 2000 13 55 36 true 7 0 ∧
    dateUnix 2000 9 10 13 55 36 - zoneSeconds true 7 0 = 971211336 ∧
    dateUnix 2000 9 10 20 55 36 = 971211336 ∧
    extractRequestTime timeParse
        (goString "127.0.0.1 - - [10/Oct/2000:13:55:36 -0700] \"GET / HTTP/1.0\" 200 232")
      = .ok ⟨dateUnix 2000 9 10 13 55 36 - zoneSeconds true 7 0, 0⟩ :=
  ⟨by decide, by decide, by decide, by decide,
    zone_offset_is_honoured _ 10 9 2000 13 55 36 true 7 0 (by decide) (by decide)
      (by decide) (by decide) (by decide) (by decide) (by decide) (by decide) (by decide)
      (by decide) (by decide)⟩

/-! ## Inversion of the parser steps -/

set_option maxRecDepth 100000 in
theorem matchByte_iff_lower :
    ∀ name ∈ shortMonthNames, ∀ x ∈ name, ∀ c : Byte,
      matchByte c x = true ↔ lowerAscii c = lowerAscii x := by
  decide!

theorem getnum_fixed_inv {s rest : GoString} {n : Nat}
    (h : getnum s true = some (n, rest)) :
    ∃ a b, s = a :: b :: rest ∧ isDigit a = true ∧ isDigit b = true ∧ n = num2 a b := by
  unfold getnum at h
  cases s with
  | nil => simp at h
  | cons a t =>
    dsimp only at h
    by_cases ha : isDigit a = true
    · rw [if_pos ha] at h
      cases t with
      | nil => simp at h
      | cons b t' =>
        dsimp only at h
        by_cases hb : isDigit b = true
        · rw [if_pos hb] at h
          simp only [Option.some.injEq, Prod.mk.injEq] at h
          obtain ⟨h1, h2⟩ := h
          exact ⟨a, b, by rw [h2], ha, hb, by rw [← h1]; rfl⟩
        · rw [if_neg hb] at h
          simp at h
    · rw [if_neg ha] at h
      simp at h

theorem getnum_free_inv {s rest : GoString} {n : Nat}
    (h : getnum s false = some (n, rest)) :
    ∃ hh, s = hh ++ rest ∧ isHourText hh n := by
  unfold getnum at h
  cases s with
  | nil => simp at h
  | cons a t =>
    dsimp only at h
    by_cases ha : isDigit a = true
    · rw [if_pos ha] at h
      cases t with
      | nil =>
        simp only [Bool.false_eq_true, if_false, Option.some.injEq, Prod.mk.injEq] at h
        obtain ⟨h1, h2⟩ := h
        exact ⟨[a], by rw [← h2]; rfl, Or.inl ⟨a, rfl, ha, h1.symm⟩⟩
      | cons b t' =>
        dsimp only at h
        by_cases hb : isDigit b = true
        · rw [if_pos hb] at h
          simp only [Option.some.injEq, Prod.mk.injEq] at h
          obtain ⟨h1, h2⟩ := h
          exact ⟨[a, b], by rw [← h2]; rfl, Or.inr ⟨a, b, rfl, ha, hb, by rw [← h1]; rfl⟩⟩
        · rw [if_neg hb] at h
          simp only [Bool.false_eq_true, if_false, Option.some.injEq, Prod.mk.injEq] at h
          obtain ⟨h1, h2⟩ := h
          exact ⟨[a], by rw [← h2]; rfl, Or.inl ⟨a, rfl, ha, h1.symm⟩⟩
    · rw [if_neg ha] at h
      simp at h

theorem skipByte_inv {c : Byte} {s rest : GoString} (h : skipByte c s = some rest) :
    s = c :: rest := by
  unfold skipByte at h
  cases s with
  | nil => simp at h
  | cons b t =>
    dsimp only at h
    by_cases hb : b = c
    · rw [if_pos hb] at h
      simp only [Option.some.injEq] at h
      rw [hb, h]
    · rw [if_neg hb] at h
      simp at h

theorem matchFold_iff_lower (a b c : Byte) :
    ∀ name ∈ shortMonthNames,
      (matchFold a b c name = true ↔ [a, b, c].map lowerAscii = name.map lowerAscii) := by
  intro name hname
  have hb := matchByte_iff_lower name hname
  simp only [shortMonthNames, List.mem_cons, List.mem_singleton, List.not_mem_nil,
    or_false] at hname
  rcases hname with rfl | rfl | rfl | rfl | rfl | rfl | rfl | rfl | rfl | rfl | rfl | rfl <;>
    simp only [matchFold, Bool.and_eq_true, List.map_cons, List.map_nil, List.cons.injEq,
      and_true, List.mem_cons, List.mem_singleton, forall_eq_or_imp, forall_eq,
      List.not_mem_nil, false_implies, implies_true] at hb ⊢ <;>
    rw [hb.1 a, hb.2.1 b, hb.2.2 c, and_assoc]

theorem lookupMonth_inv {s rest : GoString} {i : Nat}
    (h : lookupMonth s = some (i, rest)) :
    ∃ a b c, s = a :: b :: c :: rest ∧ isMonthAbbrev i a b c := by
  unfold lookupMonth at h
  match s, h with
  | a :: b :: c :: t, h =>
    dsimp only at h
    cases hf : shortMonthNames.findIdx? (matchFold a b c) with
    | none => rw [hf] at h; simp at h
    | some j =>
      rw [hf] at h
      simp only [Option.some.injEq, Prod.mk.injEq] at h
      obtain ⟨h1, h2⟩ := h
      subst h1 h2
      obtain ⟨hlt, hp, _⟩ := List.findIdx?_eq_some_iff_getElem.mp hf
      refine ⟨a, b, c, rfl, shortMonthNames[j], ?_, ?_⟩
      · exact List.getElem?_eq_getElem hlt
      · exact (matchFold_iff_lower a b c _ (List.getElem_mem _)).mp hp

theorem longYear_inv {s rest : GoString} {n : Nat} (h : longYear s = some (n, rest)) :
    ∃ a b c d, s = a :: b :: c :: d :: rest ∧ isDigit a = true ∧ isDigit b = true ∧
      isDigit c = true ∧ isDigit d = true ∧ n = num4 a b c d := by
  unfold longYear at h
  match s, h with
  | a :: b :: c :: d :: t, h =>
    dsimp only at h
    split_ifs at h with hd
    simp only [Bool.and_eq_true] at hd
    simp only [Option.some.injEq, Prod.mk.injEq] at h
    obtain ⟨h1, h2⟩ := h
    exact ⟨a, b, c, d, by rw [h2], hd.1.1.1, hd.1.1.2, hd.1.2, hd.2, by rw [← h1]; rfl⟩

theorem fracSecond_inv (v : GoString) :
    ∃ frac, v = frac ++ (fracSecond v).2 ∧ isFracText frac := by
  unfold fracSecond
  match v with
  | [] => exact ⟨[], rfl, Or.inl rfl⟩
  | [x] => exact ⟨[], rfl, Or.inl rfl⟩
  | sep :: d :: rest =>
    dsimp only
    split_ifs with hc
    · refine ⟨sep :: (d :: rest).takeWhile isDigit, ?_, Or.inr ⟨sep, _, rfl, hc.1, ?_, ?_⟩⟩
      · rw [List.cons_append, List.takeWhile_append_dropWhile]
      · simp [List.takeWhile, hc.2]
      · intro b hb
        exact (List.mem_takeWhile_imp hb)
    · exact ⟨[], rfl, Or.inl rfl⟩

theorem dropWhile_space (l : GoString) :
    ∃ k, l = List.replicate k 32 ++ l.dropWhile (fun x => x = 32) := by
  induction l with
  | nil => exact ⟨0, rfl⟩
  | cons b t ih =>
    by_cases hb : b = 32
    · obtain ⟨k, hk⟩ := ih
      refine ⟨k + 1, ?_⟩
      subst hb
      simp only [List.replicate_succ, List.cons_append, decide_True,
        List.dropWhile_cons_of_pos, List.cons.injEq, true_and]
      exact hk
    · exact ⟨0, by simp [List.dropWhile, hb]⟩

theorem skipSpace_inv {v rest : GoString} (h : skipSpace v = some rest) (hne : rest ≠ []) :
    ∃ k, v = List.replicate (k + 1) 32 ++ rest := by
  unfold skipSpace at h
  cases v with
  | nil =>
    simp only [Option.some.injEq] at h
    exact absurd h.symm hne
  | cons b t =>
    dsimp only at h
    by_cases hb : b = 32
    · rw [if_pos hb] at h
      simp only [Option.some.injEq] at h
      obtain ⟨k, hk⟩ := dropWhile_space t
      refine ⟨k, ?_⟩
      rw [← h, hb, List.replicate_succ, List.cons_append, ← hk]
    · rw [if_neg hb] at h
      simp at h

theorem numTZ_inv {v rest : GoString} {off : Int} (h : numTZ v = .ok (off, rest)) :
    ∃ sign z1 z2 z3 z4, v = sign :: z1 :: z2 :: z3 :: z4 :: rest ∧
      isDigit z1 = true ∧ isDigit z2 = true ∧ isDigit z3 = true ∧ isDigit z4 = true ∧
      (sign = 43 ∨ sign = 45) ∧ num2 z1 z2 ≤ 24 ∧ num2 z3 z4 ≤ 60 := by
  unfold numTZ at h
  match v, h with
  | sign :: h1 :: h2 :: m1 :: m2 :: t, h =>
    dsimp only at h
    cases ha : getnum [h1, h2] true with
    | none => rw [ha] at h; simp at h
    | some p =>
      obtain ⟨hr, r1⟩ := p
      rw [ha] at h
      dsimp only at h
      cases hb : getnum [m1, m2] true with
      | none => rw [hb] at h; simp at h
      | some q =>
        obtain ⟨mm, r2⟩ := q
        rw [hb] at h
        dsimp only at h
        obtain ⟨a, b, e1, da, db, hn1⟩ := getnum_fixed_inv ha
        obtain ⟨c, d, e2, dc, dd, hn2⟩ := getnum_fixed_inv hb
        simp only [List.cons.injEq] at e1 e2
        obtain ⟨rfl, rfl, _⟩ := e1
        obtain ⟨rfl, rfl, _⟩ := e2
        split_ifs at h with hrange hs1 hs2
        · simp only [Except.ok.injEq, Prod.mk.injEq] at h
          exact ⟨sign, h1, h2, m1, m2, by rw [h.2], da, db, dc, dd, Or.inl hs1,
            by omega, by omega⟩
        · simp only [Except.ok.injEq, Prod.mk.injEq] at h
          exact ⟨sign, h1, h2, m1, m2, by rw [h.2], da, db, dc, dd, Or.inr hs2,
            by omega, by omega⟩

/-- Every text that `time.Parse` accepts with this layout follows the lenient timestamp
pattern. -/
theorem timeParse_ok_isLenient {s : GoString} {t : GoTime} (h : timeParse s = .ok t) :
    isLenientTimestamp s := by
  unfold timeParse at h
  simp only [bind, Except.bind] at h
  cases e1 : getnum s true with
  | none => simp [e1, orBad] at h
  | some p1 =>
    obtain ⟨day, v1⟩ := p1
    simp only [e1, orBad] at h
    cases e2 : skipByte 47 v1 with
    | none => simp [e2] at h
    | some v2 =>
      simp only [e2] at h
      cases e3 : lookupMonth v2 with
      | none => simp [e3] at h
      | some p3 =>
        obtain ⟨month, v3⟩ := p3
        simp only [e3] at h
        cases e4 : skipByte 47 v3 with
        | none => simp [e4] at h
        | some v4 =>
          simp only [e4] at h
          cases e5 : longYear v4 with
          | none => simp [e5] at h
          | some p5 =>
            obtain ⟨year, v5⟩ := p5
            simp only [e5] at h
            cases e6 : skipByte 58 v5 with
            | none => simp [e6] at h
            | some v6 =>
              simp only [e6] at h
              cases e7 : getnum v6 false with
              | none => simp [e7] at h
              | some p7 =>
                obtain ⟨hour, v7⟩ := p7
                simp only [e7] at h
                by_cases hH : 24 ≤ hour
                · simp [if_pos hH] at h
                simp only [if_neg hH] at h
                cases e8 : skipByte 58 v7 with
                | none => simp [e8] at h
                | some v8 =>
                  simp only [e8] at h
                  cases e9 : getnum v8 true with
                  | none => simp [e9] at h
                  | some p9 =>
                    obtain ⟨min, v9⟩ := p9
                    simp only [e9] at h
                    by_cases hM : 60 ≤ min
                    · simp [if_pos hM] at h
                    simp only [if_neg hM] at h
                    cases e10 : skipByte 58 v9 with
                    | none => simp [e10] at h
                    | some v10 =>
                      simp only [e10] at h
                      cases e11 : getnum v10 true with
                      | none => simp [e11] at h
                      | some p11 =>
                        obtain ⟨sec, v11⟩ := p11
                        simp only [e11] at h
                        by_cases hS : 60 ≤ sec
                        · simp [if_pos hS] at h
                        simp only [if_neg hS] at h
                        obtain ⟨frac, efrac, hfrac⟩ := fracSecond_inv v11
                        cases e12 : skipSpace (fracSecond v11).2 with
                        | none => simp [e12] at h
                        | some v12 =>
                          simp only [e12] at h
                          cases e13 : numTZ v12 with
                          | error err => simp [e13] at h
                          | ok p13 =>
                            obtain ⟨off, v13⟩ := p13
                            simp only [e13] at h
                            by_cases hextra : v13 ≠ []
                            · simp [if_pos hextra] at h
                            simp only [if_neg hextra] at h
                            by_cases hday : day < 1 ∨ day > daysIn month year
                            · rw [if_pos hday] at h
                              cases h
                            have hv13 : v13 = [] := not_not.mp hextra
                            subst hv13
                            obtain ⟨d1, d2, rfl, hd1, hd2, rfl⟩ := getnum_fixed_inv e1
                            obtain rfl := skipByte_inv e2
                            obtain ⟨m1, m2, m3, rfl, hmon⟩ := lookupMonth_inv e3
                            obtain rfl := skipByte_inv e4
                            obtain ⟨y1, y2, y3, y4, rfl, hy1, hy2, hy3, hy4, rfl⟩ :=
                              longYear_inv e5
                            obtain rfl := skipByte_inv e6
                            obtain ⟨hh, rfl, hhour⟩ := getnum_free_inv e7
                            obtain rfl := skipByte_inv e8
                            obtain ⟨n1, n2, rfl, hn1, hn2, rfl⟩ := getnum_fixed_inv e9
                            obtain rfl := skipByte_inv e10
                            obtain ⟨s1, s2, rfl, hs1, hs2, rfl⟩ := getnum_fixed_inv e11
                            obtain ⟨sign, z1, z2, z3, z4, rfl, hz1, hz2, hz3, hz4, hsign,
                              hzh, hzm⟩ := numTZ_inv e13
                            obtain ⟨k, hk⟩ := skipSpace_inv e12 (by simp)
                            refine ⟨d1, d2, m1, m2, m3, y1, y2, y3, y4, n1, n2, s1, s2, sign,
                              z1, z2, z3, z4, hh, frac, month, hour, k, ?_, ?_, hmon, hhour,
                              hfrac, hsign, ?_, ?_, ?_, ?_, ?_, hzh, hzm⟩
                            · rw [efrac, hk]
                            · intro b hb
                              simp only [List.mem_cons, List.mem_singleton,
                                List.not_mem_nil, or_false] at hb
                              rcases hb with rfl | rfl | rfl | rfl | rfl | rfl | rfl | rfl |
                                rfl | rfl | rfl | rfl | rfl | rfl <;> assumption
                            · omega
                            · omega
                            · omega
                            · omega
                            · omega

/-! ## The lenient pattern is accepted -/

theorem getnum_digits (a b : Byte) (rest : GoString) (fixed : Bool)
    (ha : isDigit a = true) (hb : isDigit b = true) :
    getnum (a :: b :: rest) fixed = some (num2 a b, rest) := by
  simp [getnum, ha, hb, num2]

theorem isDigit_colon : isDigit 58 = false := by decide

theorem getnum_hourText (hh : GoString) (hour : Nat) (rest : GoString)
    (h : isHourText hh hour) :
    getnum (hh ++ 58 :: rest) false = some (hour, 58 :: rest) := by
  rcases h with ⟨a, rfl, ha, rfl⟩ | ⟨a, b, rfl, ha, hb, rfl⟩
  · simp [getnum, ha, isDigit_colon]
  · simp [getnum, ha, hb, num2]

theorem monthNames_lower_injective :
    ∀ i < 12, ∀ j < 12,
      (shortMonthNames.getD i []).map lowerAscii = (shortMonthNames.getD j []).map lowerAscii →
        i = j := by
  decide

theorem lookupMonth_of_abbrev (month : Nat) (m1 m2 m3 : Byte) (rest : GoString)
    (h : isMonthAbbrev month m1 m2 m3) :
    lookupMonth (m1 :: m2 :: m3 :: rest) = some (month, rest) := by
  obtain ⟨name, hname, hlow⟩ := h
  have hlen : shortMonthNames.length = 12 := rfl
  have hlt : month < shortMonthNames.length := by
    by_contra hc
    rw [List.getElem?_eq_none (by omega)] at hname
    cases hname
  have hget : shortMonthNames[month] = name := by
    rw [List.getElem?_eq_getElem hlt] at hname
    exact Option.some.inj hname
  have hfind : shortMonthNames.findIdx? (matchFold m1 m2 m3) = some month := by
    rw [List.findIdx?_eq_some_iff_getElem]
    refine ⟨hlt, ?_, ?_⟩
    · rw [hget]
      exact (matchFold_iff_lower m1 m2 m3 name (hget ▸ List.getElem_mem _)).mpr hlow
    · intro j hj hmatch
      have hjlt : j < shortMonthNames.length := by omega
      have h1 := (matchFold_iff_lower m1 m2 m3 _ (List.getElem_mem hjlt)).mp hmatch
      have h2 : (shortMonthNames.getD j []).map lowerAscii
          = (shortMonthNames.getD month []).map lowerAscii := by
        rw [List.getD_eq_getElem _ _ hjlt, List.getD_eq_getElem _ _ hlt, ← h1, hget, hlow]
      have := monthNames_lower_injective j (by omega) month (by omega) h2
      omega
  simp only [lookupMonth, hfind]

theorem longYear_digits (a b c d : Byte) (rest : GoString)
    (ha : isDigit a = true) (hb : isDigit b = true) (hc : isDigit c = true)
    (hd : isDigit d = true) :
    longYear (a :: b :: c :: d :: rest) = some (num4 a b c d, rest) := by
  simp [longYear, ha, hb, hc, hd, num4]

theorem takeWhile_digits_space (ds rest : GoString) (h : ∀ b ∈ ds, isDigit b = true) :
    (ds ++ 32 :: rest).takeWhile isDigit = ds ∧
    (ds ++ 32 :: rest).dropWhile isDigit = 32 :: rest := by
  induction ds with
  | nil =>
    have : isDigit 32 = false := by decide
    simp [List.takeWhile, List.dropWhile, this]
  | cons b ds ih =>
    have hb : isDigit b = true := h b (List.mem_cons_self _ _)
    obtain ⟨i1, i2⟩ := ih (fun x hx => h x (List.mem_cons_of_mem _ hx))
    simp only [List.cons_append, List.takeWhile, List.dropWhile, hb, List.cons.injEq,
      true_and]
    exact ⟨i1, i2⟩

theorem fracSecond_of_fracText (frac rest : GoString) (h : isFracText frac) (c : Byte) :
    (fracSecond (frac ++ 32 :: c :: rest)).2 = 32 :: c :: rest := by
  rcases h with rfl | ⟨sep, ds, rfl, hsep, hne, hds⟩
  · simp [fracSecond]
  · cases ds with
    | nil => exact absurd rfl hne
    | cons d ds' =>
      have hd : isDigit d = true := hds d (List.mem_cons_self _ _)
      have htd := takeWhile_digits_space (d :: ds') (c :: rest) hds
      simp only [List.cons_append] at htd
      simp only [fracSecond, List.cons_append, hsep, hd, and_self, if_true]
      exact htd.2

theorem skipSpace_replicate (k : Nat) (c : Byte) (rest : GoString) (hc : c ≠ 32) :
    skipSpace (List.replicate (k + 1) 32 ++ c :: rest) = some (c :: rest) := by
  have hdrop : ∀ n : Nat, (List.replicate n (32 : Byte) ++ c :: rest).dropWhile
      (fun x => x = 32) = c :: rest := by
    intro n
    induction n with
    | zero => simp [List.dropWhile, hc]
    | succ n ih => simpa [List.replicate_succ, List.dropWhile] using ih
  simp only [List.replicate_succ, List.cons_append, skipSpace, if_true, hdrop k]

theorem numTZ_of_digits (sign z1 z2 z3 z4 : Byte) (hsign : sign = 43 ∨ sign = 45)
    (h1 : isDigit z1 = true) (h2 : isDigit z2 = true) (h3 : isDigit z3 = true)
    (h4 : isDigit z4 = true) (hzh : num2 z1 z2 ≤ 24) (hzm : num2 z3 z4 ≤ 60) :
    ∃ off, numTZ [sign, z1, z2, z3, z4] = .ok (off, []) := by
  simp only [numTZ, getnum_digits z1 z2 [] true h1 h2, getnum_digits z3 z4 [] true h3 h4]
  rw [if_neg (by omega)]
  rcases hsign with rfl | rfl
  · exact ⟨_, rfl⟩
  · exact ⟨_, rfl⟩

/-- Every text that follows the lenient timestamp pattern is accepted by `time.Parse`
with this layout. -/
theorem timeParse_of_isLenient {s : GoString} (h : isLenientTimestamp s) :
    ∃ t, timeParse s = .ok t := by
  obtain ⟨d1, d2, m1, m2, m3, y1, y2, y3, y4, n1, n2, s1, s2, sign, z1, z2, z3, z4, hh, frac,
    month, hour, k, rfl, hdig, hmon, hhour, hfrac, hsign, hday1, hday2, hH, hM, hS, hzh,
    hzm⟩ := h
  have dg : ∀ b, b ∈ [d1, d2, y1, y2, y3, y4, n1, n2, s1, s2, z1, z2, z3, z4] →
      isDigit b = true := hdig
  simp only [List.mem_cons, List.mem_singleton, List.not_mem_nil, or_false,
    forall_eq_or_imp, forall_eq] at dg
  obtain ⟨g1, g2, g3, g4, g5, g6, g7, g8, g9, g10, g11, g12, g13, g14⟩ := dg
  obtain ⟨off, hoff⟩ := numTZ_of_digits sign z1 z2 z3 z4 hsign g11 g12 g13 g14 hzh hzm
  have hsign32 : sign ≠ 32 := by
    rcases hsign with rfl | rfl <;> decide
  have hfr : (fracSecond (frac ++ (List.replicate (k + 1) 32 ++ [sign, z1, z2, z3, z4]))).2
      = List.replicate (k + 1) 32 ++ [sign, z1, z2, z3, z4] := by
    cases k with
    | zero => exact fracSecond_of_fracText frac _ hfrac sign
    | succ k =>
      exact fracSecond_of_fracText frac _ hfrac 32
  refine ⟨⟨dateUnix (num4 y1 y2 y3 y4) month (num2 d1 d2) hour (num2 n1 n2) (num2 s1 s2) - off,
    (fracSecond (frac ++ (List.replicate (k + 1) 32 ++ [sign, z1, z2, z3, z4]))).1⟩, ?_⟩
  unfold timeParse
  simp only [getnum_digits d1 d2 _ true g1 g2, getnum_digits n1 n2 _ true g7 g8,
    getnum_digits s1 s2 _ true g9 g10, skipByte, orBad, if_true,
    lookupMonth_of_abbrev month m1 m2 m3 _ hmon, longYear_digits y1 y2 y3 y4 _ g3 g4 g5 g6,
    getnum_hourText hh hour _ hhour, hfr, skipSpace_replicate k sign _ hsign32, hoff,
    bind, Except.bind]
  rw [if_neg (by omega), if_neg (by omega), if_neg (by omega)]
  simp only [ne_eq, not_true_eq_false, if_false]
  rw [if_neg (by omega)]

/-- C17, amended: for every line whose first `[` precedes its first `]`,
`extractRequestTime` returns an error exactly when the text between them deviates from the
lenient timestamp pattern: two digit day, `/`, month abbreviation in any letter case, `/`,
four digit year, `:`, hour of one or two digits, `:`, two digit minute, `:`, two digit
second, an optional fractional second (a period or a comma and digits), one or more
spaces, a sign and a four digit zone offset, all within their ranges.  Extra characters
are a deviation; a one digit hour and a fractional second are not. -/
theorem error_iff_not_lenient_timestamp (line : GoString) (hline : firstOpenBeforeClose line) :
    (∃ err, extractRequestTime timeParse line = .error err) ↔
      ¬ isLenientTimestamp (textBetween line) := by
  rw [extractRequestTime_of_bracketed timeParse line hline]
  constructor
  · rintro ⟨err, he⟩ hlen
    obtain ⟨t, ht⟩ := timeParse_of_isLenient hlen
    rw [ht] at he
    cases he
  · intro hnot
    cases hp : timeParse (textBetween line) with
    | error e => exact ⟨.parseError e, rfl⟩
    | ok t => exact absurd (timeParse_ok_isLenient hp) hnot

/-- Witness for C17: extra characters after the zone offset. -/
theorem error_iff_not_lenient_timestamp_witness :
    firstOpenBeforeClose (goString "[10/Oct/2000:13:55:36 -0700 x] GET") ∧
    extractRequestTime timeParse (goString "[10/Oct/2000:13:55:36 -0700 x] GET")
      = .error (.parseError .extraText) ∧
    ¬ isLenientTimestamp (textBetween (goString "[10/Oct/2000:13:55:36 -0700 x] GET")) :=
  ⟨by decide, by decide,
    (error_iff_not_lenient_timestamp _ (by decide)).mp
      ⟨.parseError .extraText, by decide⟩⟩

/-! ## Claims on the output -/

/-- C16, failing input: in a process whose local time zone is one hour east of UTC the
record with sample time 2012-12-31T23:00:10Z is written with the local civil time and the
offset `+01:00`; the claimed text is written when the local zone is UTC. -/
theorem record_line_uses_local_zone :
    recordLine (fun _ => 3600) ⟨1356994810, "reqcount", 1⟩
      = goString "2013-01-01T00:00:10+01:00  reqcount  1\n" ∧
    recordLine utcZone ⟨1356994810, "reqcount", 1⟩
      = goString "2012-12-31T23:00:10Z  reqcount  1\n" ∧
    recordLine utcZone ⟨1356994800, "reqcount", 100⟩
      = goString "2012-12-31T23:00:00Z  reqcount  100\n" := by
  decide

/-! ## The run of `main` -/

/-- The bytes passed on and the bytes buffered together are all the bytes written. -/
theorem Writer.WriteString_content (w : Writer) (s : GoString) :
    (w.WriteString s).written ++ (w.WriteString s).buf = w.written ++ w.buf ++ s := by
  unfold Writer.WriteString
  by_cases h1 : s.length ≤ 4096 - w.buf.length
  · simp [if_pos h1]
  · rw [if_neg h1]
    by_cases h2 : w.buf.length = 0
    · have : w.buf = [] := List.length_eq_zero.mp h2
      simp [if_pos h2, this]
    · rw [if_neg h2]
      dsimp only
      by_cases h3 : (s.drop (4096 - w.buf.length)).length ≤ 4096
      · rw [if_pos h3]
        simp only [List.append_assoc, List.take_append_drop]
      · rw [if_neg h3]
        simp only [List.append_nil, List.append_assoc, List.take_append_drop]

/-- What has reached standard output is a front part of what has been written. -/
theorem Writer.WriteString_written (w : Writer) (s : GoString) :
    ∃ more, (w.WriteString s).written = w.written ++ more := by
  unfold Writer.WriteString
  by_cases h1 : s.length ≤ 4096 - w.buf.length
  · exact ⟨[], by simp [if_pos h1]⟩
  · rw [if_neg h1]
    by_cases h2 : w.buf.length = 0
    · exact ⟨s, by rw [if_pos h2]⟩
    · rw [if_neg h2]
      dsimp only
      by_cases h3 : (s.drop (4096 - w.buf.length)).length ≤ 4096
      · exact ⟨w.buf ++ s.take (4096 - w.buf.length), by rw [if_pos h3]; simp⟩
      · exact ⟨w.buf ++ s.take (4096 - w.buf.length) ++ s.drop (4096 - w.buf.length),
          by rw [if_neg h3]; simp⟩

/-- What `dropCR` removes holds no bracket. -/
theorem dropCR_spec (l : GoString) :
    ∃ cr : GoString, l = dropCR l ++ cr ∧ openBracket ∉ cr ∧ closeBracket ∉ cr := by
  unfold dropCR
  split_ifs with h
  · exact ⟨[13], (List.dropLast_append_getLast? 13 (by simp [h])).symm, by decide, by decide⟩
  · exact ⟨[], by simp, by simp, by simp⟩

/-- Text without brackets around a line does not change the timestamp extracted. -/
theorem extractRequestTime_padding {ε τ : Type} (timeParse : GoString → Except ε τ)
    (pre s suf : GoString) (h1 : openBracket ∉ pre) (h2 : closeBracket ∉ pre)
    (h3 : openBracket ∉ suf) (h4 : closeBracket ∉ suf) (t : τ) :
    extractRequestTime timeParse (pre ++ s ++ suf) = .ok t ↔
      extractRequestTime timeParse s = .ok t := by
  obtain ⟨hiff, htext⟩ := bracketed_of_padding pre s suf h1 h2 h3 h4
  by_cases hb : firstOpenBeforeClose s
  · rw [extractRequestTime_of_bracketed timeParse _ hb,
      extractRequestTime_of_bracketed timeParse _ (hiff.mpr hb), htext hb]
  · rw [extractRequestTime_of_not_bracketed timeParse _ hb,
      extractRequestTime_of_not_bracketed timeParse _ (fun h => hb (hiff.mp h))]
    simp

/-- The line that `main` hands to `extractRequestTime`, the scanned line trimmed, yields a
timestamp exactly when the line of the input does, and then the same one. -/
theorem extractRequestTime_scanned {ε τ : Type} (timeParse : GoString → Except ε τ)
    (l : GoString) (t : τ) :
    extractRequestTime timeParse (stringsTrimSpace (dropCR l)) = .ok t ↔
      extractRequestTime timeParse l = .ok t := by
  obtain ⟨cr, hcr, c1, c2⟩ := dropCR_spec l
  obtain ⟨pre, suf, hs, h1, h2, h3, h4⟩ := stringsTrimSpace_spec (dropCR l)
  have hl : l = pre ++ stringsTrimSpace (dropCR l) ++ (suf ++ cr) := by
    rw [← List.append_assoc, ← hs]
    exact hcr
  have h := extractRequestTime_padding timeParse pre (stringsTrimSpace (dropCR l))
    (suf ++ cr) h1 h2 (by simp [h3, c1]) (by simp [h4, c2]) t
  rw [← hl] at h
  exact h.symm

/-- A result of `extractRequestTime` is a timestamp or an error. -/
theorem extract_ok_or_error {ε τ : Type} (x : Except ε τ) :
    (∃ t, x = .ok t) ∨ (∃ err, x = .error err) := by
  cases x with
  | ok t => exact Or.inl ⟨t, rfl⟩
  | error e => exact Or.inr ⟨e, rfl⟩

/-- Extraction fails on the scanned and trimmed line exactly when it fails on the line of
the input. -/
theorem extractRequestTime_scanned_error {ε τ : Type} (timeParse : GoString → Except ε τ)
    (l : GoString) :
    (∃ err, extractRequestTime timeParse (stringsTrimSpace (dropCR l)) = .error err) ↔
      (∃ err, extractRequestTime timeParse l = .error err) := by
  constructor
  · rintro ⟨err, h⟩
    rcases extract_ok_or_error (extractRequestTime timeParse l) with ⟨t, ht⟩ | h2
    · rw [(extractRequestTime_scanned timeParse l t).mpr ht] at h
      cases h
    · exact h2
  · rintro ⟨err, h⟩
    rcases extract_ok_or_error (extractRequestTime timeParse (stringsTrimSpace (dropCR l)))
      with ⟨t, ht⟩ | h2
    · rw [(extractRequestTime_scanned timeParse l t).mp ht] at h
      cases h
    · exact h2

/-- Every iteration that gets past the extraction increments `lineno`. -/
theorem processEvent_lineno (cfg : Config) (s : LoopState) (t : Int) :
    (processEvent cfg s t).1.lineno = s.lineno + 1 := by
  unfold processEvent
  dsimp only
  split_ifs <;> rfl

/-- Fail-fast part of the loop: when the lines before a line extract a timestamp and that
line does not, the run ends with `os.Exit(1)` and reports the position of that line,
whatever follows it; the bytes handed to the writer, of which a front part has reached
standard output before the message, are the output of the run over the lines before. -/
theorem runLoop_fail_fast (localOffset : Int → Int) (parseErrorText : GoString → GoString)
    (cfg : Config) (good : List GoString) (bad : GoString) (err : ExtractError ParseError)
    (hgood : ∀ l ∈ good, ∃ t, extractRequestTime timeParse (stringsTrimSpace l) = .ok t)
    (hbad : extractRequestTime timeParse (stringsTrimSpace bad) = .error err) :
    ∀ (s : LoopState) (w : Writer), ∃ flushed buffered : GoString,
      (∀ rest, runLoop localOffset parseErrorText cfg s w (good ++ bad :: rest)
        = ⟨flushed ++ failureMessage parseErrorText (s.lineno + good.length)
            (stringsTrimSpace bad) err, buffered, .failure (s.lineno + good.length) err⟩) ∧
      runLoop localOffset parseErrorText cfg s w good = ⟨flushed ++ buffered, [], .success⟩ := by
  induction good with
  | nil =>
    intro s w
    refine ⟨w.written, w.buf, ?_, ?_⟩
    · intro rest
      simp only [List.nil_append, runLoop, hbad, List.length_nil, Nat.add_zero]
    · simp only [runLoop, Writer.Flush]
  | cons l good ih =>
    intro s w
    obtain ⟨t, ht⟩ := hgood l (List.mem_cons_self _ _)
    have ih' := ih (fun x hx => hgood x (List.mem_cons_of_mem _ hx))
    obtain ⟨flushed, buffered, h1, h2⟩ := ih' (processEvent cfg s t.unix).1
      (writeRecord localOffset w (processEvent cfg s t.unix).2)
    have e : s.lineno + (good.length + 1) = (processEvent cfg s t.unix).1.lineno + good.length := by
      rw [processEvent_lineno]
      omega
    refine ⟨flushed, buffered, ?_, ?_⟩
    · intro rest
      simp only [List.cons_append, runLoop, ht, List.length_cons]
      rw [e]
      exact h1 rest
    · simp only [runLoop, ht]
      exact h2

/-- The loop ends with `os.Exit(1)` exactly when the extraction fails on one of the lines
that the scanner yields. -/
theorem runLoop_exit_iff (localOffset : Int → Int) (parseErrorText : GoString → GoString)
    (cfg : Config) (toks : List GoString) :
    ∀ (s : LoopState) (w : Writer),
      (runLoop localOffset parseErrorText cfg s w toks).exit ≠ .success ↔
        ∃ l ∈ toks, ∃ err, extractRequestTime timeParse (stringsTrimSpace l) = .error err := by
  induction toks with
  | nil =>
    intro s w
    simp [runLoop]
  | cons l toks ih =>
    intro s w
    rcases extract_ok_or_error (extractRequestTime timeParse (stringsTrimSpace l))
      with ⟨t, ht⟩ | ⟨err, he⟩
    · simp only [runLoop, ht, List.mem_cons, exists_eq_or_imp]
      rw [ih]
      simp
    · simp only [runLoop, he, List.mem_cons, exists_eq_or_imp]
      simp

/-- The scanner yields every line of an input whose lines are shorter than
`maxScanTokenSize`. -/
theorem scannerLines_of_short (lines : List GoString)
    (hlen : ∀ l ∈ lines, l.length < maxScanTokenSize) :
    scannerLines lines = lines.map dropCR := by
  unfold scannerLines
  rw [List.takeWhile_eq_self_iff.mpr (fun l hl => by simpa using hlen l hl)]

/-- A line of `maxScanTokenSize` bytes or more hides itself and the lines after it. -/
theorem scannerLines_of_long (short : List GoString) (long : GoString) (rest : List GoString)
    (hshort : ∀ l ∈ short, l.length < maxScanTokenSize)
    (hlong : maxScanTokenSize ≤ long.length) :
    scannerLines (short ++ long :: rest) = short.map dropCR := by
  unfold scannerLines
  rw [List.takeWhile_append_of_pos (fun l hl => by simpa using hshort l hl)]
  have : ¬ long.length < maxScanTokenSize := by omega
  simp [List.takeWhile, this]

/-- The lines after a line that the scanner yields do not change what it yields up to
that line. -/
theorem scannerLines_append (good : List GoString) (bad : GoString) (rest : List GoString)
    (hgood : ∀ l ∈ good, l.length < maxScanTokenSize)
    (hbad : bad.length < maxScanTokenSize) :
    scannerLines (good ++ bad :: rest) = good.map dropCR ++ dropCR bad :: scannerLines rest := by
  unfold scannerLines
  rw [List.takeWhile_append_of_pos (fun l hl => by simpa using hgood l hl)]
  simp [List.takeWhile, hbad]

/-- The bytes written by a loop in which every line has a timestamp: the lines of the
records that the loop over the timestamps produces, after what the writer held. -/
theorem runLoop_success_stdout (localOffset : Int → Int)
    (parseErrorText : GoString → GoString) (cfg : Config) (toks : List GoString)
    (ts : List Int)
    (h : List.Forall₂ (fun l t => ∃ g : GoTime,
      extractRequestTime timeParse (stringsTrimSpace l) = .ok g ∧ g.unix = t) toks ts) :
    ∀ (s : LoopState) (w : Writer),
      runLoop localOffset parseErrorText cfg s w toks
        = ⟨w.written ++ w.buf ++
            (((runTrace cfg s ts).2.reduceOption.map (recordLine localOffset)).foldr
              (fun a b => a ++ b) []), [], .success⟩ := by
  induction h with
  | nil =>
    intro s w
    simp [runLoop, Writer.Flush, runTrace]
  | cons hlt _ ih =>
    obtain ⟨g, hg, rfl⟩ := hlt
    intro s w
    simp only [runLoop, hg, runTrace]
    rw [ih]
    cases hr : (processEvent cfg s g.unix).2 with
    | none => simp [writeRecord, List.reduceOption_cons_of_none]
    | some r =>
      simp only [writeRecord, List.reduceOption_cons_of_some, List.map_cons, List.foldr_cons,
        Writer.WriteString_content]
      simp only [List.append_assoc]

/-- The standard output of a run in which every line is shorter than `maxScanTokenSize`
and has a timestamp: the lines of the records of `output` on the timestamps. -/
theorem runMain_success_stdout (localOffset : Int → Int)
    (parseErrorText : GoString → GoString) (cfg : Config) (lines : List GoString)
    (ts : List Int) (hlen : ∀ l ∈ lines, l.length < maxScanTokenSize)
    (h : List.Forall₂ (fun l t => ∃ g : GoTime,
      extractRequestTime timeParse l = .ok g ∧ g.unix = t) lines ts) :
    runMain localOffset parseErrorText cfg lines
      = ⟨((output cfg ts).map (recordLine localOffset)).foldr (fun a b => a ++ b) [],
          [], .success⟩ := by
  unfold runMain
  rw [scannerLines_of_short lines hlen, runLoop_success_stdout localOffset parseErrorText cfg
    (lines.map dropCR) ts]
  · simp [newWriter, output, trace]
  · rw [List.forall₂_map_left_iff]
    refine h.imp ?_
    rintro l t ⟨g, hg, rfl⟩
    exact ⟨g, (extractRequestTime_scanned timeParse l g).mpr hg, rfl⟩

/-- C12, amended: for every input whose lines are shorter than `maxScanTokenSize` bytes,
the run fails exactly when the timestamp extraction fails for at least one line.  When the
extraction succeeds on the lines `good` and fails on the next line `bad`, the run ends with
`os.Exit(1)` and reports the 1-based position of `bad` and the error of its extraction,
whatever lines follow; and the bytes that the run has handed to the writer (`flushed`,
which reached standard output before the message, and `buffered`, which stayed in the
buffer of the writer) are exactly the output of the run over the lines `good`. -/
theorem fail_fast_run (localOffset : Int → Int) (parseErrorText : GoString → GoString)
    (cfg : Config) (lines : List GoString)
    (hlen : ∀ l ∈ lines, l.length < maxScanTokenSize) :
    ((runMain localOffset parseErrorText cfg lines).exit ≠ .success ↔
      ∃ l ∈ lines, ∃ err, extractRequestTime timeParse l = .error err) ∧
    ∀ (good : List GoString) (bad : GoString) (rest : List GoString),
      lines = good ++ bad :: rest →
      (∀ l ∈ good, ∃ t, extractRequestTime timeParse l = .ok t) →
      (∃ err, extractRequestTime timeParse bad = .error err) →
      ∃ (err : ExtractError ParseError) (flushed buffered : GoString),
        extractRequestTime timeParse (stringsTrimSpace (dropCR bad)) = .error err ∧
        (∀ later, runMain localOffset parseErrorText cfg (good ++ bad :: later)
          = ⟨flushed ++ failureMessage parseErrorText (good.length + 1)
              (stringsTrimSpace (dropCR bad)) err, buffered,
              .failure (good.length + 1) err⟩) ∧
        runMain localOffset parseErrorText cfg good
          = ⟨flushed ++ buffered, [], .success⟩ := by
  constructor
  · unfold runMain
    rw [runLoop_exit_iff, scannerLines_of_short lines hlen]
    simp only [List.mem_map, exists_exists_and_eq_and, extractRequestTime_scanned_error]
  · intro good bad rest hl hgood hbad
    have hg : ∀ l ∈ good, l.length < maxScanTokenSize :=
      fun l h => hlen l (by rw [hl]; exact List.mem_append_left _ h)
    have hb : bad.length < maxScanTokenSize :=
      hlen bad (by rw [hl]; exact List.mem_append_right _ (List.mem_cons_self _ _))
    obtain ⟨err, herr⟩ := (extractRequestTime_scanned_error timeParse bad).mpr hbad
    have hgood' : ∀ l ∈ good.map dropCR,
        ∃ t, extractRequestTime timeParse (stringsTrimSpace l) = .ok t := by
      intro l h
      obtain ⟨x, hx, rfl⟩ := List.mem_map.mp h
      obtain ⟨t, ht⟩ := hgood x hx
      exact ⟨t, (extractRequestTime_scanned timeParse x t).mpr ht⟩
    obtain ⟨flushed, buffered, h1, h2⟩ := runLoop_fail_fast localOffset parseErrorText cfg
      (good.map dropCR) (dropCR bad) err hgood' herr initState newWriter
    refine ⟨err, flushed, buffered, herr, ?_, ?_⟩
    · intro later
      unfold runMain
      rw [scannerLines_append good bad later hg hb, h1]
      simp [initState, Nat.add_comm]
    · unfold runMain
      rw [scannerLines_of_short good hg]
      exact h2

/-- C12, witness: two lines with a timestamp and a third without. -/
theorem fail_fast_run_witness :
    (∀ l ∈ [goString "[31/Dec/2012:23:00:00 +0000]", goString "[31/Dec/2012:23:00:11 +0000]",
        goString "no timestamp"], l.length < maxScanTokenSize) ∧
    (∀ l ∈ [goString "[31/Dec/2012:23:00:00 +0000]", goString "[31/Dec/2012:23:00:11 +0000]"],
      ∃ t, extractRequestTime timeParse l = .ok t) ∧
    (∃ err, extractRequestTime timeParse (goString "no timestamp") = .error err) ∧
    ∃ (err : ExtractError ParseError) (flushed buffered : GoString),
      extractRequestTime timeParse (stringsTrimSpace (dropCR (goString "no timestamp")))
        = .error err ∧
      (∀ later, runMain utcZone (fun _ => []) ⟨"reqcount", 10000000000⟩
          ([goString "[31/Dec/2012:23:00:00 +0000]", goString "[31/Dec/2012:23:00:11 +0000]"]
            ++ goString "no timestamp" :: later)
        = ⟨flushed ++ failureMessage (fun _ => []) 3
            (stringsTrimSpace (dropCR (goString "no timestamp"))) err, buffered,
            .failure 3 err⟩) ∧
      runMain utcZone (fun _ => []) ⟨"reqcount", 10000000000⟩
          [goString "[31/Dec/2012:23:00:00 +0000]", goString "[31/Dec/2012:23:00:11 +0000]"]
        = ⟨flushed ++ buffered, [], .success⟩ := by
  have h1 : ∀ l ∈ [goString "[31/Dec/2012:23:00:00 +0000]",
      goString "[31/Dec/2012:23:00:11 +0000]", goString "no timestamp"],
      l.length < maxScanTokenSize := by decide
  have h2 : ∀ l ∈ [goString "[31/Dec/2012:23:00:00 +0000]",
      goString "[31/Dec/2012:23:00:11 +0000]"],
      ∃ t, extractRequestTime timeParse l = .ok t := by
    intro l hl
    simp only [List.mem_cons, List.mem_singleton, List.not_mem_nil, or_false] at hl
    rcases hl with rfl | rfl
    · exact ⟨⟨1356994800, 0⟩, by decide⟩
    · exact ⟨⟨1356994811, 0⟩, by decide⟩
  have h3 : ∃ err, extractRequestTime timeParse (goString "no timestamp") = .error err :=
    ⟨.malformedLine (goString "no timestamp"), by decide⟩
  exact ⟨h1, h2, h3,
    (fail_fast_run utcZone (fun _ => []) ⟨"reqcount", 10000000000⟩
      [goString "[31/Dec/2012:23:00:00 +0000]", goString "[31/Dec/2012:23:00:11 +0000]",
        goString "no timestamp"] h1).2
      [goString "[31/Dec/2012:23:00:00 +0000]", goString "[31/Dec/2012:23:00:11 +0000]"]
      (goString "no timestamp") [] rfl h2 h3⟩

/-- C12, counterexample to the claim for every input: the third line has
`maxScanTokenSize` bytes and the fourth line has no timestamp, so the extraction fails for
at least one line; the scanner stops at the third line, and the run ends as at the end of
the input, with exit code 0 and the record of the first two lines on standard output. -/
theorem long_line_ends_run_without_failure :
    (∃ l ∈ [goString "[31/Dec/2012:23:00:00 +0000]", goString "[31/Dec/2012:23:00:11 +0000]",
        List.replicate maxScanTokenSize 120, goString "no timestamp"],
      ∃ err, extractRequestTime timeParse l = .error err) ∧
    runMain utcZone (fun _ => []) ⟨"reqcount", 10000000000⟩
        [goString "[31/Dec/2012:23:00:00 +0000]", goString "[31/Dec/2012:23:00:11 +0000]",
          List.replicate maxScanTokenSize 120, goString "no timestamp"]
      = ⟨goString "2012-12-31T23:00:10Z  reqcount  1\n", [], .success⟩ := by
  refine ⟨⟨goString "no timestamp",
    List.mem_cons_of_mem _ (List.mem_cons_of_mem _ (List.mem_cons_of_mem _
      (List.mem_cons_self _ _))),
    .malformedLine (goString "no timestamp"), by decide⟩, ?_⟩
  have hs : scannerLines [goString "[31/Dec/2012:23:00:00 +0000]",
      goString "[31/Dec/2012:23:00:11 +0000]", List.replicate maxScanTokenSize 120,
      goString "no timestamp"]
      = [goString "[31/Dec/2012:23:00:00 +0000]", goString "[31/Dec/2012:23:00:11 +0000]"] :=
    (scannerLines_of_long
      [goString "[31/Dec/2012:23:00:00 +0000]", goString "[31/Dec/2012:23:00:11 +0000]"]
      (List.replicate maxScanTokenSize 120) [goString "no timestamp"] (by decide)
      (by simp)).trans (by decide)
  unfold runMain
  rw [hs]
  decide!

/-- The failing run of the witness, evaluated: the message of `fmt.Printf` is all that
reaches standard output, and the record handed to the writer stays in its buffer; the run
over the first two lines writes that record. -/
theorem failed_run_example :
    runMain utcZone (fun _ => []) ⟨"reqcount", 10000000000⟩
        [goString "[31/Dec/2012:23:00:00 +0000]", goString "[31/Dec/2012:23:00:11 +0000]",
          goString "no timestamp"]
      = ⟨goString ("line 3: failed to extract timestamp: " ++
            "line does not contain a brace-enclosed timestamp: no timestamp"),
          goString "2012-12-31T23:00:10Z  reqcount  1\n",
          .failure 3 (.malformedLine (goString "no timestamp"))⟩ ∧
    runMain utcZone (fun _ => []) ⟨"reqcount", 10000000000⟩
        [goString "[31/Dec/2012:23:00:00 +0000]", goString "[31/Dec/2012:23:00:11 +0000]"]
      = ⟨goString "2012-12-31T23:00:10Z  reqcount  1\n", [], .success⟩ := by
  decide!

/-! ## The calendar: `Time.Format` inverts `time.Date` -/

theorem mul_add_div_lt (k b x : Nat) (hk : 0 < k) (hx : x < k) : (k * b + x) / k = b := by
  rw [Nat.mul_add_div hk, Nat.div_eq_of_lt hx, Nat.add_zero]

theorem cut_cycles (b c r3 yd : Nat) (hb : b < 4) (hc : c < 25) (hr3 : r3 < 4)
    (hyd : yd ≤ 364 ∨ (yd = 365 ∧ r3 = 3 ∧ (c ≠ 24 ∨ b = 3))) :
    ∀ d1 n100 d2 n4 d3 n1 : Nat,
      d1 = 36524 * b + 1461 * c + 365 * r3 + yd →
      n100 = d1 / 36524 - (d1 / 36524) / 4 →
      d2 = d1 - 36524 * n100 →
      n4 = d2 / 1461 →
      d3 = d2 - 1461 * n4 →
      n1 = d3 / 365 - (d3 / 365) / 4 →
      n100 = b ∧ n4 = c ∧ n1 = r3 ∧ d3 - 365 * n1 = yd := by
  intro d1 n100 d2 n4 d3 n1 h1 h2 h3 h4 h5 h6
  have q1 : d1 / 36524 = b ∨ (d1 / 36524 = 4 ∧ b = 3) := by
    by_cases hx : 1461 * c + 365 * r3 + yd < 36524
    · left
      rw [h1, Nat.add_assoc, Nat.add_assoc]
      exact mul_add_div_lt 36524 b _ (by norm_num) (by omega)
    · right
      have hb3 : b = 3 := by omega
      have hd : d1 = 146096 := by omega
      rw [hd]
      exact ⟨by norm_num, hb3⟩
  have e1 : n100 = b := by
    rcases q1 with q | ⟨q, hb3⟩
    · rw [h2, q]; omega
    · rw [h2, q, hb3]
  have e2 : d2 = 1461 * c + 365 * r3 + yd := by
    rw [h3, e1, h1]; omega
  have q3 : d2 / 1461 = c := by
    rw [e2, Nat.add_assoc]
    exact mul_add_div_lt 1461 c _ (by norm_num) (by omega)
  have e3 : n4 = c := by rw [h4, q3]
  have e4 : d3 = 365 * r3 + yd := by
    rw [h5, e3, e2]; omega
  have q5 : d3 / 365 = r3 ∨ (d3 / 365 = 4 ∧ r3 = 3) := by
    by_cases hx : yd < 365
    · left
      rw [e4]
      exact mul_add_div_lt 365 r3 _ (by norm_num) hx
    · right
      have h3' : r3 = 3 := by omega
      have hd : d3 = 1460 := by omega
      rw [hd]
      exact ⟨by norm_num, h3'⟩
  have e5 : n1 = r3 := by
    rcases q5 with q | ⟨q, h3'⟩
    · rw [h6, q]; omega
    · rw [h6, q, h3']
  exact ⟨e1, e3, e5, by rw [e4, e5]; omega⟩

theorem isLeap_iff (y : Nat) :
    isLeap y = true ↔ (y % 4 = 0 ∧ (y % 100 ≠ 0 ∨ y % 400 = 0)) := by
  simp [isLeap]

theorem isLeapInt_natCast (y : Nat) : isLeapInt (y : Int) = isLeap y := by
  have h4 : ((y : Int) % 4 = 0) ↔ (y % 4 = 0) := by omega
  have h100 : ((y : Int) % 100 = 0) ↔ (y % 100 = 0) := by omega
  have h400 : ((y : Int) % 400 = 0) ↔ (y % 400 = 0) := by omega
  simp only [isLeapInt, isLeap, h4, h100, h400, ne_eq]

/-- The cycle cutting of `yearAndDay` recovers the year and the day of the year. -/
theorem yearAndDay_spec (y yd : Nat)
    (hyd : yd < 365 + (if isLeap y = true then 1 else 0)) :
    yearAndDay (daysBeforeYear y + yd) = ((y : Int), yd) := by
  obtain ⟨a, r, hY, hr1⟩ : ∃ (a : Int) (r : Nat), (y : Int) - 1 = 400 * a + r ∧ r < 400 :=
    ⟨((y : Int) - 1) / 400, (((y : Int) - 1) % 400).toNat, by omega, by omega⟩
  obtain ⟨b, r2, hr, hb, hr2⟩ : ∃ b r2 : Nat, r = 100 * b + r2 ∧ b < 4 ∧ r2 < 100 :=
    ⟨r / 100, r % 100, by omega, by omega, by omega⟩
  obtain ⟨c, r3, hr2', hc, hr3⟩ : ∃ c r3 : Nat, r2 = 4 * c + r3 ∧ c < 25 ∧ r3 < 4 :=
    ⟨r2 / 4, r2 % 4, by omega, by omega, by omega⟩
  have hy4 : y % 4 = 0 ↔ r3 = 3 := by omega
  have hy100 : y % 100 = 0 ↔ (c = 24 ∧ r3 = 3) := by omega
  have hy400 : y % 400 = 0 ↔ (b = 3 ∧ c = 24 ∧ r3 = 3) := by omega
  have hyd' : yd ≤ 364 ∨ (yd = 365 ∧ r3 = 3 ∧ (c ≠ 24 ∨ b = 3)) := by
    by_cases hl : isLeap y = true
    · rw [if_pos hl] at hyd
      have := (isLeap_iff y).mp hl
      have h3 : r3 = 3 := hy4.mp this.1
      by_cases h5 : yd = 365
      · right
        refine ⟨h5, h3, ?_⟩
        rcases this.2 with h | h
        · left
          intro hc24
          exact h (hy100.mpr ⟨hc24, h3⟩)
        · right
          exact (hy400.mp h).1
      · left; omega
    · rw [if_neg hl] at hyd
      left; omega
  have e4 : ((y : Int) - 1) / 4 = 100 * a + ((25 * b + c : Nat) : Int) := by omega
  have e100 : ((y : Int) - 1) / 100 = 4 * a + ((b : Nat) : Int) := by omega
  have e400 : ((y : Int) - 1) / 400 = a := by omega
  have hd0 : daysBeforeYear y + yd + 719162
      = 146097 * a + ((36524 * b + 1461 * c + 365 * r3 + yd : Nat) : Int) := by
    simp only [daysBeforeYear]
    rw [e4, e100, e400]
    push_cast
    omega
  have hlt : 36524 * b + 1461 * c + 365 * r3 + yd < 146097 := by omega
  generalize hX : 36524 * b + 1461 * c + 365 * r3 + yd = X at hd0 hlt
  have hq : (146097 * a + (X : Int)) / 146097 = a := by omega
  have hm : ((146097 * a + (X : Int)) % 146097).toNat = X := by omega
  obtain ⟨k1, k2, k3, k4⟩ := cut_cycles b c r3 yd hb hc hr3 hyd' X _ _ _ _ _ hX.symm rfl rfl
    rfl rfl rfl
  unfold yearAndDay
  simp only [hd0, hq, hm]
  rw [k4, k3, k2, k1]
  congr 1
  push_cast
  omega

theorem monthAndDay_table :
    ∀ leap : Bool, ∀ m < 12, ∀ d < 32, 1 ≤ d →
      d ≤ [31, 28, 31, 30, 31, 30, 31, 31, 30, 31, 30, 31].getD m 0
        + (if leap = true ∧ m = 1 then 1 else 0) →
      monthAndDay leap (daysBefore m + (if leap = true ∧ 2 ≤ m then 1 else 0) + (d - 1))
          = (m, d) ∧
        daysBefore m + (if leap = true ∧ 2 ≤ m then 1 else 0) + (d - 1)
          < 365 + (if leap = true then 1 else 0) := by
  decide!

theorem daysIn_le_table (m y d : Nat) (hd : d ≤ daysIn m y) :
    d < 32 ∧ d ≤ [31, 28, 31, 30, 31, 30, 31, 31, 30, 31, 30, 31].getD m 0
      + (if isLeap y = true ∧ m = 1 then 1 else 0) := by
  unfold daysIn at hd
  by_cases h1 : m = 1
  · subst h1
    by_cases hl : isLeap y = true
    · simp only [hl, if_true] at hd
      simp [hl]
      omega
    · simp only [hl, if_true, Bool.false_eq_true, if_false] at hd
      simp [hl]
      omega
  · rw [if_neg h1] at hd
    simp only [h1, and_false, if_false, Nat.add_zero]
    refine ⟨?_, hd⟩
    by_cases hm : m < 12
    · interval_cases m <;> simp at hd <;> omega
    · have : [31, 28, 31, 30, 31, 30, 31, 31, 30, 31, 30, 31].getD m 0 = 0 := by
        rw [List.getD_eq_default]
        simp; omega
      omega

/-- The model of `absDate` inverts the day count of the model of `time.Date`. -/
theorem civilFromDays_spec (y m d : Nat) (hm : m < 12) (hd1 : 1 ≤ d)
    (hd2 : d ≤ daysIn m y) :
    civilFromDays (daysBeforeYear y + daysBefore m
        + (if isLeap y = true ∧ 2 ≤ m then 1 else 0) + ((d : Int) - 1))
      = ((y : Int), m, d) := by
  obtain ⟨hd32, hdt⟩ := daysIn_le_table m y d hd2
  obtain ⟨t1, t2⟩ := monthAndDay_table (isLeap y) m hm d hd32 hd1 hdt
  have hcast : daysBeforeYear y + daysBefore m
        + (if isLeap y = true ∧ 2 ≤ m then 1 else 0) + ((d : Int) - 1)
      = daysBeforeYear y + ((daysBefore m + (if isLeap y = true ∧ 2 ≤ m then 1 else 0)
          + (d - 1) : Nat) : Int) := by
    push_cast
    split_ifs <;> omega
  unfold civilFromDays
  rw [hcast, yearAndDay_spec y _ t2]
  simp only [isLeapInt_natCast, t1]

theorem appendInt_two : ∀ n < 100, appendInt ((n : Nat) : Int) 2 = twoDigits n := by
  decide!

theorem decimalFuel_small (f n : Nat) (acc : GoString) (h : n < 10) :
    decimalFuel (f + 1) n acc = digitByte n :: acc := by
  simp [decimalFuel, h]

theorem decimalFuel_big (f n : Nat) (acc : GoString) (h : 10 ≤ n) :
    decimalFuel (f + 1) n acc = decimalFuel f (n / 10) (digitByte n :: acc) := by
  have : ¬ n < 10 := by omega
  simp [decimalFuel, this]

theorem digitByte_zero : digitByte 0 = 48 := rfl

theorem appendInt_four (n : Nat) (hn : n < 10000) :
    appendInt ((n : Nat) : Int) 4 = fourDigits n := by
  have hneg : ¬ ((n : Int) < 0) := by omega
  have e100 : n / 10 / 10 = n / 100 := by omega
  have e1000 : n / 100 / 10 = n / 1000 := by omega
  simp only [appendInt, if_neg hneg, Int.natAbs_ofNat, List.nil_append, fourDigits]
  by_cases h1 : n < 10
  · have d : decimal n = [digitByte n] := by
      rw [decimal, decimalFuel_small _ _ _ h1]
    have z1 : n / 1000 = 0 := by omega
    have z2 : n / 100 = 0 := by omega
    have z3 : n / 10 = 0 := by omega
    rw [d, z1, z2, z3, digitByte_zero]
    rfl
  · by_cases h2 : n < 100
    · have d : decimal n = [digitByte (n / 10), digitByte n] := by
        have e : n + 1 = (n - 1) + 1 + 1 := by omega
        rw [decimal, e, decimalFuel_big _ _ _ (by omega), decimalFuel_small _ _ _ (by omega)]
      have z1 : n / 1000 = 0 := by omega
      have z2 : n / 100 = 0 := by omega
      rw [d, z1, z2, digitByte_zero]
      rfl
    · by_cases h3 : n < 1000
      · have d : decimal n = [digitByte (n / 100), digitByte (n / 10), digitByte n] := by
          have e : n + 1 = (n - 2) + 1 + 1 + 1 := by omega
          rw [decimal, e, decimalFuel_big _ _ _ (by omega), decimalFuel_big _ _ _ (by omega),
            decimalFuel_small _ _ _ (by omega), e100]
        have z1 : n / 1000 = 0 := by omega
        rw [d, z1, digitByte_zero]
        rfl
      · have d : decimal n
            = [digitByte (n / 1000), digitByte (n / 100), digitByte (n / 10), digitByte n] := by
          have e : n + 1 = (n - 3) + 1 + 1 + 1 + 1 := by omega
          rw [decimal, e, decimalFuel_big _ _ _ (by omega), decimalFuel_big _ _ _ (by omega),
            decimalFuel_big _ _ _ (by omega), decimalFuel_small _ _ _ (by omega), e100, e1000]
        rw [d]
        rfl

/-- With every field in range, `Format(time.RFC3339)` of the instant whose civil fields in
the zone are the given ones writes those fields, zero padded, then the zone. -/
theorem formatRFC3339_of_civil (off : Int) (y m d H M S : Nat) (hm : m < 12) (hd1 : 1 ≤ d)
    (hd2 : d ≤ daysIn m y) (hy : y < 10000) (hH : H < 24) (hM : M < 60) (hS : S < 60) :
    formatRFC3339 off (dateUnix y m d H M S - off)
      = isoCivil y m d H M S ++
        (if off = 0 then [90]
         else (if off.tdiv 60 < 0 then 45 else 43) ::
           (appendInt (((off.tdiv 60).natAbs / 60 : Nat) : Int) 2 ++ 58 ::
             appendInt (((off.tdiv 60).natAbs % 60 : Nat) : Int) 2)) := by
  have hciv := civilFromDays_spec y m d hm hd1 hd2
  have habs : dateUnix y m d H M S - off + off = dateUnix y m d H M S := by ring
  generalize hD : daysBeforeYear y + daysBefore m
      + (if isLeap y = true ∧ 2 ≤ m then 1 else 0) + ((d : Int) - 1) = D at hciv
  have hdu : dateUnix y m d H M S = D * 86400 + ((H * 3600 + M * 60 + S : Nat) : Int) := by
    simp only [dateUnix, ← hD]
    push_cast
    ring
  have hq : (D * 86400 + ((H * 3600 + M * 60 + S : Nat) : Int)) / 86400 = D := by omega
  have hr : ((D * 86400 + ((H * 3600 + M * 60 + S : Nat) : Int)) % 86400).toNat
      = H * 3600 + M * 60 + S := by omega
  have s1 : (H * 3600 + M * 60 + S) / 3600 = H := by omega
  have s2 : (H * 3600 + M * 60 + S) % 3600 / 60 = M := by omega
  have s3 : (H * 3600 + M * 60 + S) % 60 = S := by omega
  have hsum : dateUnix y m d H M S - off + off
      = D * 86400 + ((H * 3600 + M * 60 + S : Nat) : Int) := by rw [habs, hdu]
  unfold formatRFC3339
  simp only [hsum, hq, hr, hciv, s1, s2, s3]
  have a1 := appendInt_four y hy
  have a2 : appendInt ((m : Int) + 1) 2 = twoDigits (m + 1) := by
    have := appendInt_two (m + 1) (by omega)
    push_cast at this
    exact this
  have hd32 := (daysIn_le_table m y d hd2).1
  rw [a1, a2, appendInt_two d (by omega), appendInt_two H (by omega),
    appendInt_two M (by omega), appendInt_two S (by omega)]
  simp only [isoCivil, List.append_assoc, List.cons_append]

/-- When the local time zone is UTC the text written for a record is the sample time as
`yyyy-mm-ddTHH:MM:SSZ`, two spaces, the metric name, two spaces, the value in decimal and
a newline. -/
theorem recordLine_utc (y m d H M S : Nat) (metricName : String) (value : Nat)
    (hm : m < 12) (hd1 : 1 ≤ d) (hd2 : d ≤ daysIn m y) (hy : y < 10000) (hH : H < 24)
    (hM : M < 60) (hS : S < 60) :
    recordLine utcZone ⟨dateUnix y m d H M S, metricName, value⟩
      = isoCivil y m d H M S ++ 90 :: 32 :: 32 ::
          (goString metricName ++ 32 :: 32 :: (decimal value ++ [10])) := by
  have h := formatRFC3339_of_civil 0 y m d H M S hm hd1 hd2 hy hH hM hS
  simp only [sub_zero, if_true] at h
  simp only [recordLine, utcZone, h, List.append_assoc, List.cons_append, List.nil_append]

end Apache2Metric
